import Mathlib

/-!
# ffuf: the configuration-history store (`pkg/ffuf/history.go`)

A shallow embedding of `WriteHistoryEntry`, `calculateHistoryHash`, `SearchHash`
and `configFromHistory`, together with the parts of the Go standard library
they call (`strconv.ParseInt`, `strings.ToLower`, `strings.HasPrefix`,
`crypto/sha256`, `fmt.Sprintf("%x", ...)`, and the `os` file operations on the
history directory).

Conventions.
* A Go `string` or `[]byte` is a list of bytes (`GoString`), each byte a `Nat`.
* A Go multi-value return `(v, err)` is a Lean pair whose error component is an
  `Option Error`, `none` standing for `nil`.
* The file system is an explicit state that is threaded through the operations.
-/

namespace Ffuf

/-! ## Strings -/

/-- Go `string` (and `[]byte`): a sequence of bytes. -/
abbrev GoString := List Nat

/-- The constant `utf8.RuneError` (U+FFFD). -/
def RuneError : Nat := 0xFFFD

/-- The constant `utf8.MaxRune`. -/
def MaxRune : Nat := 0x10FFFF

/-- The encoding `utf8.AppendRune` appends for the rune `r`; runes above
`MaxRune` and surrogates are written as `RuneError`. -/
def encodeRune (r : Nat) : GoString :=
  if r ≤ 0x7F then [r]
  else if r ≤ 0x7FF then [0xC0 ||| (r >>> 6), 0x80 ||| (r &&& 0x3F)]
  else if r > MaxRune ∨ (0xD800 ≤ r ∧ r ≤ 0xDFFF) then [0xEF, 0xBF, 0xBD]
  else if r ≤ 0xFFFF then
    [0xE0 ||| (r >>> 12), 0x80 ||| ((r >>> 6) &&& 0x3F), 0x80 ||| (r &&& 0x3F)]
  else
    [0xF0 ||| (r >>> 18), 0x80 ||| ((r >>> 12) &&& 0x3F),
     0x80 ||| ((r >>> 6) &&& 0x3F), 0x80 ||| (r &&& 0x3F)]

/-- The bytes of a string literal (its UTF-8 encoding, as the Go compiler
stores it). -/
def str (s : String) : GoString :=
  s.data.flatMap fun c => encodeRune c.toNat

/-- The table `first` of package `unicode/utf8`, for a lead byte `b ≥ 0x80`:
the length of the sequence it starts and the range accepted for the second
byte, or `none` for a byte that cannot start a sequence. -/
def utf8First (b : Nat) : Option (Nat × Nat × Nat) :=
  if b < 0xC2 then none
  else if b ≤ 0xDF then some (2, 0x80, 0xBF)
  else if b = 0xE0 then some (3, 0xA0, 0xBF)
  else if b ≤ 0xEC then some (3, 0x80, 0xBF)
  else if b = 0xED then some (3, 0x80, 0x9F)
  else if b ≤ 0xEF then some (3, 0x80, 0xBF)
  else if b = 0xF0 then some (4, 0x90, 0xBF)
  else if b ≤ 0xF3 then some (4, 0x80, 0xBF)
  else if b = 0xF4 then some (4, 0x80, 0x8F)
  else none

/-- Go `utf8.DecodeRuneInString`: the first rune of `s` and its width in
bytes; an invalid or short sequence gives `(RuneError, 1)`, the empty string
`(RuneError, 0)`. -/
def decodeRune : GoString → Nat × Nat
  | [] => (RuneError, 0)
  | s0 :: rest =>
    if s0 < 0x80 then (s0, 1)
    else
      match utf8First s0 with
      | none => (RuneError, 1)
      | some (sz, lo, hi) =>
        if rest.length + 1 < sz then (RuneError, 1)
        else
          match rest with
          | [] => (RuneError, 1)
          | s1 :: r1 =>
            if s1 < lo ∨ hi < s1 then (RuneError, 1)
            else if sz ≤ 2 then (((s0 &&& 0x1F) <<< 6) ||| (s1 &&& 0x3F), 2)
            else
              match r1 with
              | [] => (RuneError, 1)
              | s2 :: r2 =>
                if s2 < 0x80 ∨ 0xBF < s2 then (RuneError, 1)
                else if sz ≤ 3 then
                  (((s0 &&& 0x0F) <<< 12) ||| ((s1 &&& 0x3F) <<< 6) ||| (s2 &&& 0x3F), 3)
                else
                  match r2 with
                  | [] => (RuneError, 1)
                  | s3 :: _ =>
                    if s3 < 0x80 ∨ 0xBF < s3 then (RuneError, 1)
                    else
                      (((s0 &&& 0x07) <<< 18) ||| ((s1 &&& 0x3F) <<< 12)
                        ||| ((s2 &&& 0x3F) <<< 6) ||| (s3 &&& 0x3F), 4)

/-- Lower-casing of one ASCII byte: `'A'..'Z'` move to `'a'..'z'`. -/
def lowerByte (c : Nat) : Nat :=
  if 0x41 ≤ c ∧ c ≤ 0x5A then c + 0x20 else c

/-- Go `unicode.ToLower`: ASCII runes are handled in code, every other rune
goes through the case tables of package `unicode`, which are the parameter
`tbl`. -/
def unicodeToLower (tbl : Nat → Nat) (r : Nat) : Nat :=
  if r ≤ 0x7F then lowerByte r else tbl r

/-- Go `strings.Map(mapping, s)`: every rune of `s` (an invalid byte counting
as `RuneError`) is replaced by the encoding of its image. The first argument
bounds the number of runes read. -/
def mapRunes (mapping : Nat → Nat) : Nat → GoString → GoString
  | 0, _ => []
  | _ + 1, [] => []
  | fuel + 1, b :: rest =>
    let d := decodeRune (b :: rest)
    encodeRune (mapping d.1) ++ mapRunes mapping fuel ((b :: rest).drop d.2)

/-- Go `strings.Map`, with enough fuel for the whole string. -/
def stringsMap (mapping : Nat → Nat) (s : GoString) : GoString :=
  mapRunes mapping s.length s

/-- Go `strings.ToLower`: an ASCII-only string is lower-cased byte by byte,
any other string rune by rune with `unicode.ToLower`. -/
def stringsToLower (tbl : Nat → Nat) (s : GoString) : GoString :=
  if s.all (fun c => decide (c < 0x80)) then s.map lowerByte
  else stringsMap (unicodeToLower tbl) s

/-- Go `strings.HasPrefix(s, p)`. -/
def stringsHasPrefix (s p : GoString) : Bool :=
  decide (p.length ≤ s.length) && (s.take p.length == p)

/-! ## `strconv.ParseInt` -/

/-- The two sentinel errors of package `strconv`. -/
inductive NumError
  | ErrSyntax
  | ErrRange
  deriving DecidableEq, Repr

/-- The helper `lower` of package `strconv`: `c | ('x' - 'X')`. -/
def lower (c : Nat) : Nat := c ||| 0x20

/-- The digit a byte stands for in the loop of `strconv.ParseUint`: `'0'..'9'`
are 0 to 9, a letter is 10 to 35 whatever its case, any other byte is no
digit. -/
def digitOf (c : Nat) : Option Nat :=
  if 0x30 ≤ c ∧ c ≤ 0x39 then some (c - 0x30)
  else if 0x61 ≤ lower c ∧ lower c ≤ 0x7A then some (lower c - 0x61 + 10)
  else none

/-- The digit loop of `strconv.ParseUint` for an explicit base: `n` is the
value accumulated so far, `cutoff` the least number whose product with the
base overflows 64 bits, `maxVal` the largest value of the requested size. -/
def parseUintLoop (base cutoff maxVal : Nat) : GoString → Nat → Nat × Option NumError
  | [], n => (n, none)
  | c :: cs, n =>
    match digitOf c with
    | none => (0, some .ErrSyntax)
    | some d =>
      if d ≥ base then (0, some .ErrSyntax)
      else if n ≥ cutoff then (maxVal, some .ErrRange)
      else
        let n' := (n * base) % 2 ^ 64
        let n1 := (n' + d) % 2 ^ 64
        if n1 < n' ∨ n1 > maxVal then (maxVal, some .ErrRange)
        else parseUintLoop base cutoff maxVal cs n1

/-- Go `strconv.ParseUint(s, base, bitSize)` for `2 ≤ base ≤ 36` and
`1 ≤ bitSize ≤ 64` (the only way this program calls it). -/
def ParseUint (s : GoString) (base bitSize : Nat) : Nat × Option NumError :=
  if s = [] then (0, some .ErrSyntax)
  else
    let cutoff := (2 ^ 64 - 1) / base + 1
    let maxVal := 2 ^ bitSize - 1
    parseUintLoop base cutoff maxVal s 0

/-- Go `strconv.ParseInt(s, base, bitSize)`. -/
def ParseInt (s : GoString) (base bitSize : Nat) : Int × Option NumError :=
  match s with
  | [] => (0, some .ErrSyntax)
  | c :: cs =>
    let neg := decide (c = 0x2D)
    let s' := if c = 0x2B ∨ c = 0x2D then cs else c :: cs
    let (un, err) := ParseUint s' base bitSize
    if err.isSome ∧ err ≠ some .ErrRange then (0, err)
    else
      let cutoff := 2 ^ (bitSize - 1)
      if ¬ neg ∧ un ≥ cutoff then (((cutoff - 1 : Nat) : Int), some .ErrRange)
      else if neg ∧ un > cutoff then (-((cutoff : Nat) : Int), some .ErrRange)
      else
        let n : Int := (un : Int)
        (if neg then -n else n, none)

/-! ## `crypto/sha256` and `fmt.Sprintf("%x", ...)` -/

/-- Truncation to a 32-bit word. -/
def w32 (n : Nat) : Nat := n % 2 ^ 32

/-- Go `bits.RotateLeft32(x, -k)`: rotation of a 32-bit word to the right. -/
def rotr (x k : Nat) : Nat := (x >>> k) ||| w32 (x <<< (32 - k))

/-- The round constants `_K` of `crypto/sha256`. -/
def sha256K : List Nat := [
  0x428a2f98, 0x71374491, 0xb5c0fbcf, 0xe9b5dba5, 0x3956c25b, 0x59f111f1, 0x923f82a4, 0xab1c5ed5,
  0xd807aa98, 0x12835b01, 0x243185be, 0x550c7dc3, 0x72be5d74, 0x80deb1fe, 0x9bdc06a7, 0xc19bf174,
  0xe49b69c1, 0xefbe4786, 0x0fc19dc6, 0x240ca1cc, 0x2de92c6f, 0x4a7484aa, 0x5cb0a9dc, 0x76f988da,
  0x983e5152, 0xa831c66d, 0xb00327c8, 0xbf597fc7, 0xc6e00bf3, 0xd5a79147, 0x06ca6351, 0x14292967,
  0x27b70a85, 0x2e1b2138, 0x4d2c6dfc, 0x53380d13, 0x650a7354, 0x766a0abb, 0x81c2c92e, 0x92722c85,
  0xa2bfe8a1, 0xa81a664b, 0xc24b8b70, 0xc76c51a3, 0xd192e819, 0xd6990624, 0xf40e3585, 0x106aa070,
  0x19a4c116, 0x1e376c08, 0x2748774c, 0x34b0bcb5, 0x391c0cb3, 0x4ed8aa4a, 0x5b9cca4f, 0x682e6ff3,
  0x748f82ee, 0x78a5636f, 0x84c87814, 0x8cc70208, 0x90befffa, 0xa4506ceb, 0xbef9a3f7, 0xc67178f2]

/-- The eight working words of a SHA-256 digest. -/
structure Digest where
  a : Nat
  b : Nat
  c : Nat
  d : Nat
  e : Nat
  f : Nat
  g : Nat
  h : Nat
  deriving DecidableEq

/-- The initial value `init0 .. init7` of `crypto/sha256`. -/
def sha256Init : Digest :=
  ⟨0x6a09e667, 0xbb67ae85, 0x3c6ef372, 0xa54ff53a, 0x510e527f, 0x9b05688c, 0x1f83d9ab, 0x5be0cd19⟩

/-- The padded message: the byte `0x80`, zero bytes up to 56 modulo 64, and the
bit length as a 64-bit big-endian number. -/
def sha256Pad (m : List Nat) : List Nat :=
  let l := m.length
  m ++ [0x80] ++ List.replicate ((119 - l % 64) % 64) 0
    ++ (List.range 8).map fun i => ((8 * l) >>> (8 * (7 - i))) % 256

/-- Big-endian 32-bit words of a byte sequence. -/
def beWords : List Nat → List Nat
  | a :: b :: c :: d :: rest => (a * 16777216 + b * 65536 + c * 256 + d) :: beWords rest
  | _ => []

/-- The message schedule, most recent word first: `n` more words are derived
from the sixteen before them. -/
def sha256Schedule : Nat → List Nat → List Nat
  | 0, w => w
  | n + 1, w =>
    let v1 := w.getD 1 0
    let t1 := rotr v1 17 ^^^ rotr v1 19 ^^^ (v1 >>> 10)
    let v2 := w.getD 14 0
    let t2 := rotr v2 7 ^^^ rotr v2 18 ^^^ (v2 >>> 3)
    sha256Schedule n (w32 (t1 + w.getD 6 0 + t2 + w.getD 15 0) :: w)

/-- One round of the compression function. -/
def sha256Round (s : Digest) (k w : Nat) : Digest :=
  let t1 := w32 (s.h + (rotr s.e 6 ^^^ rotr s.e 11 ^^^ rotr s.e 25)
    + ((s.e &&& s.f) ^^^ ((4294967295 - s.e) &&& s.g)) + k + w)
  let t2 := w32 ((rotr s.a 2 ^^^ rotr s.a 13 ^^^ rotr s.a 22)
    + ((s.a &&& s.b) ^^^ (s.a &&& s.c) ^^^ (s.b &&& s.c)))
  ⟨w32 (t1 + t2), s.a, s.b, s.c, w32 (s.d + t1), s.e, s.f, s.g⟩

/-- The 64 rounds over round constants and schedule. -/
def sha256Rounds : Digest → List Nat → List Nat → Digest
  | s, k :: ks, w :: ws => sha256Rounds (sha256Round s k w) ks ws
  | s, _, _ => s

/-- The compression of one 16-word block (`blockGeneric`). -/
def sha256Block (h : Digest) (ws : List Nat) : Digest :=
  let s := sha256Rounds h sha256K (sha256Schedule 48 ws.reverse).reverse
  ⟨w32 (h.a + s.a), w32 (h.b + s.b), w32 (h.c + s.c), w32 (h.d + s.d),
   w32 (h.e + s.e), w32 (h.f + s.f), w32 (h.g + s.g), w32 (h.h + s.h)⟩

/-- Compression of `n` consecutive blocks. -/
def sha256Blocks : Nat → Digest → List Nat → Digest
  | 0, h, _ => h
  | n + 1, h, ws => sha256Blocks n (sha256Block h (ws.take 16)) (ws.drop 16)

/-- The four bytes of a 32-bit word, big-endian. -/
def beBytes (x : Nat) : List Nat :=
  [(x >>> 24) % 256, (x >>> 16) % 256, (x >>> 8) % 256, x % 256]

/-- Go `sha256.Sum256`: the 32-byte SHA-256 digest of `m`. -/
def sha256Sum256 (m : List Nat) : List Nat :=
  let ws := beWords (sha256Pad m)
  let s := sha256Blocks (ws.length / 16) sha256Init ws
  beBytes s.a ++ beBytes s.b ++ beBytes s.c ++ beBytes s.d
    ++ beBytes s.e ++ beBytes s.f ++ beBytes s.g ++ beBytes s.h

/-- One lower-case hexadecimal digit (a character of `"0123456789abcdef"`). -/
def hexDigit (n : Nat) : Nat := if n < 10 then 0x30 + n else 0x57 + n

/-- Go `fmt.Sprintf("%x", b)` for a byte array: two lower-case hexadecimal
digits for every byte. -/
def sprintfHex (bs : List Nat) : GoString :=
  bs.flatMap fun b => [hexDigit (b / 16 % 16), hexDigit (b % 16)]

/-- Source `calculateHistoryHash` (history.go:38-40). -/
def calculateHistoryHash (options : List Nat) : GoString :=
  sprintfHex (sha256Sum256 options)

/-! ## Errors and paths -/

/-- A path, as the list of its components below the history directory. -/
abbrev Path := List GoString

/-- Source `HISTORYDIR` (constants.go:14): the history directory,
`filepath.Join(xdg.ConfigHome, "ffuf", "history")`. Paths are taken relative to
it, so it is the empty component list. -/
def HISTORYDIR : Path := []

/-- Go `filepath.Join(dir, elems...)` on component lists; every element joined
by this program is a single file name. -/
def filepathJoin (dir : Path) (elems : List GoString) : Path := dir ++ elems

/-- Operating-system error numbers the file operations report. -/
inductive Errno
  | ENOENT
  | EACCES
  | ENOTDIR
  | EFBIG
  deriving DecidableEq, Repr

/-- Go `error` values that occur in this program. -/
inductive Error
  /-- A value made by `errors.New`. -/
  | errorString (msg : String)
  /-- A `*fs.PathError` of package `os`. -/
  | pathError (op : String) (path : Path) (errno : Errno)
  /-- An error of package `encoding/json`. -/
  | jsonError (msg : String)
  deriving DecidableEq, Repr

/-- Go `errors.New`. -/
def errorsNew (msg : String) : Error := .errorString msg

/-! ## The file system below the history directory -/

/-- A regular file: its bytes and whether the process may read and write it. -/
structure File where
  data : List Nat
  readable : Bool
  writable : Bool
  deriving DecidableEq, Repr

/-- An entry directly under the history directory. For a directory, `writable`
says whether files may be created in it and `options` is the file `options` in
it, if there is one. -/
structure Node where
  name : GoString
  isDir : Bool
  writable : Bool
  options : Option File
  deriving DecidableEq, Repr

/-- The history directory itself: missing (and then creatable or not), or
present with its permissions and its entries in listing order. -/
inductive Root
  | missing (creatable : Bool)
  | present (listable writable : Bool) (entries : List Node)
  deriving DecidableEq, Repr

/-- The state of the file system: the history directory and the largest size
a file may be written to (`none`: no limit), beyond which a write stops with
an error after the bytes that fit. -/
structure FS where
  root : Root
  fsizeLimit : Option Nat
  deriving DecidableEq, Repr

/-- Go `fs.DirEntry`, as far as this program looks at it. -/
structure DirEntry where
  Name : GoString
  IsDir : Bool
  deriving DecidableEq, Repr

/-- The entries of the history directory (none when it is missing). -/
def FS.entries (fs : FS) : List Node :=
  match fs.root with
  | .missing _ => []
  | .present _ _ es => es

/-- The first entry of that name. -/
def lookupNode (name : GoString) (es : List Node) : Option Node :=
  es.find? fun n => n.name == name

/-- Byte-wise order of file names, the order `os.ReadDir` sorts by. -/
def nameLt : GoString → GoString → Bool
  | [], [] => false
  | [], _ :: _ => true
  | _ :: _, [] => false
  | a :: as, b :: bs => decide (a < b) || (a == b && nameLt as bs)

/-- A new entry takes its place in the listing, before the first entry whose
name is greater. -/
def insertNode (n : Node) : List Node → List Node
  | [] => [n]
  | m :: ms => if nameLt n.name m.name then n :: m :: ms else m :: insertNode n ms

/-- The first entry of that name is replaced. -/
def replaceNode (n : Node) : List Node → List Node
  | [] => []
  | m :: ms => if m.name == n.name then n :: ms else m :: replaceNode n ms

/-- Go `os.ReadDir(name)`: the entries of the directory in listing order, or an
error. Only the history directory and the directories in it are known. -/
def osReadDir (fs : FS) (name : Path) : List DirEntry × Option Error :=
  match fs.root with
  | .missing _ => ([], some (.pathError "open" name .ENOENT))
  | .present listable _ es =>
    match name with
    | [] =>
      if listable then (es.map fun n => ⟨n.name, n.isDir⟩, none)
      else ([], some (.pathError "open" name .EACCES))
    | [d] =>
      match lookupNode d es with
      | none => ([], some (.pathError "open" name .ENOENT))
      | some n =>
        if n.isDir then
          (match n.options with
            | none => []
            | some _ => [⟨str "options", false⟩], none)
        else ([], some (.pathError "open" name .ENOTDIR))
    | _ => ([], some (.pathError "open" name .ENOENT))

/-- Go `os.ReadFile(name)`: the bytes of the file, or an error. -/
def osReadFile (fs : FS) (name : Path) : List Nat × Option Error :=
  match fs.root, name with
  | .present _ _ es, [d, f] =>
    match lookupNode d es with
    | none => ([], some (.pathError "open" name .ENOENT))
    | some n =>
      if ¬ n.isDir then ([], some (.pathError "open" name .ENOTDIR))
      else if f ≠ str "options" then ([], some (.pathError "open" name .ENOENT))
      else
        match n.options with
        | none => ([], some (.pathError "open" name .ENOENT))
        | some file =>
          if file.readable then (file.data, none)
          else ([], some (.pathError "open" name .EACCES))
  | _, _ => ([], some (.pathError "open" name .ENOENT))

/-- The bytes a write of `data` leaves in a file, and the error of the write:
everything, or the bytes that fit below the size limit and `EFBIG`. -/
def writeBytes (limit : Option Nat) (name : Path) (data : List Nat) : List Nat × Option Error :=
  match limit with
  | none => (data, none)
  | some k =>
    if data.length ≤ k then (data, none)
    else (data.take k, some (.pathError "write" name .EFBIG))

/-- Go `os.WriteFile(name, data, perm)`: the file is created if it is missing
(readable and writable by its owner, as `perm = 0640` asks) and truncated
otherwise, then `data` is written; a failing write leaves the file partially
written. -/
def osWriteFile (fs : FS) (name : Path) (data : List Nat) : FS × Option Error :=
  match fs.root, name with
  | .present l w es, [d, f] =>
    match lookupNode d es with
    | none => (fs, some (.pathError "open" name .ENOENT))
    | some n =>
      if ¬ n.isDir then (fs, some (.pathError "open" name .ENOTDIR))
      else if f ≠ str "options" then (fs, some (.pathError "open" name .EACCES))
      else
        match n.options with
        | none =>
          if n.writable then
            let r := writeBytes fs.fsizeLimit name data
            let es' := replaceNode { n with options := some ⟨r.1, true, true⟩ } es
            ({ fs with root := .present l w es' }, r.2)
          else (fs, some (.pathError "open" name .EACCES))
        | some file =>
          if file.writable then
            let r := writeBytes fs.fsizeLimit name data
            let es' := replaceNode { n with options := some { file with data := r.1 } } es
            ({ fs with root := .present l w es' }, r.2)
          else (fs, some (.pathError "open" name .EACCES))
  | _, _ => (fs, some (.pathError "open" name .ENOENT))

/-- Go `os.MkdirAll(path, perm)` for a directory directly under the history
directory: an existing directory is success, a missing history directory is
created first, and the new directory is empty and writable by its owner. -/
def osMkdirAll (fs : FS) (path : Path) : FS × Option Error :=
  match path with
  | [d] =>
    match fs.root with
    | .missing creatable =>
      if creatable then
        ({ fs with root := .present true true [⟨d, true, true, none⟩] }, none)
      else (fs, some (.pathError "mkdir" path .EACCES))
    | .present l w es =>
      match lookupNode d es with
      | some n =>
        if n.isDir then (fs, none) else (fs, some (.pathError "mkdir" path .ENOTDIR))
      | none =>
        if w then ({ fs with root := .present l w (insertNode ⟨d, true, true, none⟩ es) }, none)
        else (fs, some (.pathError "mkdir" path .EACCES))
  | _ => (fs, some (.pathError "mkdir" path .ENOENT))

/-- Modelled from the spec: `createConfigDir` is called by `WriteHistoryEntry`
but defined in a file of package `ffuf` that is not among the sources. The
spec (4.1) says of this step: "ensure a directory named by the hex ContentHash
exists under the history root (create it and any missing parent directories;
treat already exists as success, not an error)". -/
def createConfigDir (fs : FS) (path : Path) : FS × Option Error :=
  osMkdirAll fs path

/-! ## The program -/

/-- Source `ConfigOptionsHistory` (history.go:15-18): the options of a run
and the time of recording. The type `ConfigOptions` is declared outside the
sources and is a parameter, as is the representation of `time.Time`. -/
structure ConfigOptionsHistory (Opts Tm : Type) where
  ConfigOptions : Opts
  Time : Tm
  deriving DecidableEq, Repr

/-- What the program takes from outside `history.go`: the method
`(*Config).ToOptions`, `json.Marshal` and `json.Unmarshal` at the type
`ConfigOptionsHistory`, the zero value of that type, and the case tables of
package `unicode`. -/
structure Externals (Config Opts Tm : Type) where
  ToOptions : Config → Opts
  jsonMarshal : ConfigOptionsHistory Opts Tm → List Nat × Option Error
  jsonUnmarshal : List Nat → ConfigOptionsHistory Opts Tm × Option Error
  zeroValue : ConfigOptionsHistory Opts Tm
  caseTable : Nat → Nat

variable {Config Opts Tm : Type}

/-- Source `WriteHistoryEntry` (history.go:20-36); `now` is the value of
`time.Now()`. The result is the returned pair and the file system after the
call. -/
def WriteHistoryEntry (X : Externals Config Opts Tm) (now : Tm) (fs : FS) (conf : Config) :
    (GoString × Option Error) × FS :=
  let options : ConfigOptionsHistory Opts Tm :=
    { ConfigOptions := X.ToOptions conf, Time := now }
  let (jsonoptions, err) := X.jsonMarshal options
  if err.isSome then ((str "", err), fs)
  else
    let hashstr := calculateHistoryHash jsonoptions
    let (fs1, err) := createConfigDir fs (filepathJoin HISTORYDIR [hashstr])
    if err.isSome then ((str "", err), fs1)
    else
      let (fs2, err) :=
        osWriteFile fs1 (filepathJoin HISTORYDIR [hashstr, str "options"]) jsonoptions
      ((hashstr, err), fs2)

/-- Source `configFromHistory` (history.go:75-83). -/
def configFromHistory (X : Externals Config Opts Tm) (fs : FS) (dirname : Path) :
    ConfigOptionsHistory Opts Tm × Option Error :=
  let (jsonOptions, err) := osReadFile fs (filepathJoin dirname [str "options"])
  if err.isSome then (X.zeroValue, err)
  else X.jsonUnmarshal jsonOptions

/-- Source `SearchHash` (history.go:42-73). The two loops append to their
slices as the source does; the error returned at the end is the one of
`os.ReadDir`, since the loop body declares an `err` of its own. -/
def SearchHash (X : Externals Config Opts Tm) (fs : FS) (hash : GoString) :
    List (ConfigOptionsHistory Opts Tm) × Int × Option Error :=
  let coptions : List (ConfigOptionsHistory Opts Tm) := []
  if hash.length < 6 then (coptions, 0, some (errorsNew "bad FFUFHASH value"))
  else
    let historypart := hash.take 5
    let (position, err) := ParseInt (hash.drop 5) 16 32
    if err.isSome then (coptions, 0, some (errorsNew "bad positional value in FFUFHASH"))
    else
      let (all_dirs, err) := osReadDir fs HISTORYDIR
      if err.isSome then (coptions, 0, err)
      else
        let matched_dirs : List GoString :=
          all_dirs.foldl
            (fun matched filename =>
              if filename.IsDir then
                if stringsHasPrefix (stringsToLower X.caseTable filename.Name)
                    (stringsToLower X.caseTable historypart) then
                  matched ++ [filename.Name]
                else matched
              else matched)
            []
        let coptions :=
          matched_dirs.foldl
            (fun coptions dirname =>
              let (copts, err) := configFromHistory X fs (filepathJoin HISTORYDIR [dirname])
              if err.isSome then coptions
              else coptions ++ [copts])
            coptions
        (coptions, position, err)

/-! ## Notions the statements use -/

/-- The first message of `SearchHash`: the identifier is too short. -/
def errBadHash : Error := errorsNew "bad FFUFHASH value"

/-- The second message of `SearchHash`: the position does not parse. -/
def errBadPosition : Error := errorsNew "bad positional value in FFUFHASH"

/-- The decode step of `SearchHash` (history.go:44-51) goes through: the
identifier has six bytes or more and its remainder parses. -/
def Decodes (s : GoString) : Prop :=
  6 ≤ s.length ∧ (ParseInt (s.drop 5) 16 32).2 = none

instance (s : GoString) : Decidable (Decodes s) := by
  unfold Decodes; infer_instance

/-- The history directory can be listed. -/
def Listable (fs : FS) : Prop := (osReadDir fs HISTORYDIR).2 = none

instance (fs : FS) : Decidable (Listable fs) := by
  unfold Listable; infer_instance

/-- A hexadecimal digit, `[0-9a-fA-F]`. -/
def isHexDigit (c : Nat) : Bool :=
  (decide (0x30 ≤ c) && decide (c ≤ 0x39)) || (decide (0x41 ≤ c) && decide (c ≤ 0x46))
    || (decide (0x61 ≤ c) && decide (c ≤ 0x66))

/-- A lower-case hexadecimal digit, `[0-9a-f]`. -/
def isLowerHex (c : Nat) : Bool :=
  (decide (0x30 ≤ c) && decide (c ≤ 0x39)) || (decide (0x61 ≤ c) && decide (c ≤ 0x66))

/-- The value of a hexadecimal digit. -/
def hexVal (c : Nat) : Nat :=
  if c ≤ 0x39 then c - 0x30 else if c ≤ 0x46 then c - 0x41 + 10 else c - 0x61 + 10

/-- The base-16 value of a string of hexadecimal digits. -/
def hexValue (s : GoString) : Nat :=
  s.foldl (fun n c => 16 * n + hexVal c) 0

/-- The identifier format `^[0-9a-fA-F]{5}[0-9a-fA-F]+$` of the specification. -/
def MatchesFormat (s : GoString) : Prop :=
  6 ≤ s.length ∧ (s.take 5).all isHexDigit = true ∧ (s.drop 5).all isHexDigit = true

instance (s : GoString) : Decidable (MatchesFormat s) := by
  unfold MatchesFormat; infer_instance

/-- The remainder the decode step really accepts: an optional sign, then one
hexadecimal digit or more. -/
def SignedHex (r : GoString) : Prop :=
  match r with
  | [] => False
  | c :: cs =>
    if c = 0x2B ∨ c = 0x2D then cs ≠ [] ∧ cs.all isHexDigit = true
    else (c :: cs).all isHexDigit = true

/-- The test of the first loop of `SearchHash`: the entry is a directory whose
lower-cased name starts with the lower-cased first five bytes of the
identifier. -/
def matchesEntry (tbl : Nat → Nat) (s : GoString) (e : DirEntry) : Bool :=
  e.IsDir && stringsHasPrefix (stringsToLower tbl e.Name) (stringsToLower tbl (s.take 5))

/-- The snapshot stored in the directory `name`: the content of its `options`
file, deserialized; none when the file cannot be read or deserialized. -/
def snapshotOf (X : Externals Config Opts Tm) (fs : FS) (name : GoString) :
    Option (ConfigOptionsHistory Opts Tm) :=
  match osReadFile fs [name, str "options"] with
  | (_, some _) => none
  | (bytes, none) =>
    match X.jsonUnmarshal bytes with
    | (_, some _) => none
    | (v, none) => some v

/-- The sequence the specification describes for `Locate`: the listing of the
history directory, restricted to the matching directories, each mapped to its
snapshot, the entries without a snapshot left out. -/
def locateSpec (X : Externals Config Opts Tm) (fs : FS) (s : GoString) :
    List (ConfigOptionsHistory Opts Tm) :=
  ((osReadDir fs HISTORYDIR).1.filter (matchesEntry X.caseTable s)).filterMap
    fun e => snapshotOf X fs e.Name

/-- Two bytes that are equal up to the case of an ASCII letter. -/
def caseEq (a b : Nat) : Prop := lowerByte a = lowerByte b

instance (a b : Nat) : Decidable (caseEq a b) := by
  unfold caseEq; infer_instance

/-- Two strings that are equal up to letter case, byte by byte. -/
def CaseEqual (s t : GoString) : Prop := List.Forall₂ caseEq s t

instance (s t : GoString) : Decidable (CaseEqual s t) := by
  unfold CaseEqual; infer_instance

/-- Two entries that differ at most in the letter case of their names. -/
def nodeCaseEq (m n : Node) : Prop :=
  CaseEqual m.name n.name ∧ m.isDir = n.isDir ∧ m.writable = n.writable
    ∧ m.options = n.options

instance (m n : Node) : Decidable (nodeCaseEq m n) := by
  unfold nodeCaseEq; infer_instance

/-- Two file system states that differ at most in the letter case of the names
of the entries of the history directory, entry by entry in listing order. -/
def SameUpToNameCase (fs1 fs2 : FS) : Prop :=
  fs1.fsizeLimit = fs2.fsizeLimit ∧
    match fs1.root, fs2.root with
    | .missing c1, .missing c2 => c1 = c2
    | .present l1 w1 es1, .present l2 w2 es2 =>
      l1 = l2 ∧ w1 = w2 ∧ List.Forall₂ nodeCaseEq es1 es2
    | _, _ => False

instance (fs1 fs2 : FS) : Decidable (SameUpToNameCase fs1 fs2) := by
  unfold SameUpToNameCase
  cases fs1.root <;> cases fs2.root <;> infer_instance

/-- No two entries of the history directory have the same name. -/
def UniqueNames (fs : FS) : Prop := (fs.entries.map fun n => n.name).Nodup

instance (fs : FS) : Decidable (UniqueNames fs) := by
  unfold UniqueNames; infer_instance

/-- The entries of the history directory stand in the order `os.ReadDir` lists
them in: sorted by name, byte by byte. -/
def SortedByName (fs : FS) : Prop :=
  fs.entries.Pairwise fun m n => nameLt m.name n.name = true

instance (fs : FS) : Decidable (SortedByName fs) := by
  unfold SortedByName; infer_instance

/-- Two file system states that differ at most in the letter case of the names
of the entries of the history directory, whatever the order of each listing:
the entries of the first, put in some order, are equal up to the letter case
of the names to the entries of the second, one by one. -/
def SameEntriesUpToNameCase (fs1 fs2 : FS) : Prop :=
  fs1.fsizeLimit = fs2.fsizeLimit ∧
    match fs1.root, fs2.root with
    | .missing c1, .missing c2 => c1 = c2
    | .present l1 w1 es1, .present l2 w2 es2 =>
      l1 = l2 ∧ w1 = w2 ∧ ∃ es : List Node, es.Perm es1 ∧ List.Forall₂ nodeCaseEq es es2
    | _, _ => False

/-- The bytes `WriteHistoryEntry` serializes for `conf` at time `now`. -/
def recordBytes (X : Externals Config Opts Tm) (now : Tm) (conf : Config) : List Nat :=
  (X.jsonMarshal { ConfigOptions := X.ToOptions conf, Time := now }).1

/-- The hash `WriteHistoryEntry` computes for `conf` at time `now`. -/
def recordHash (X : Externals Config Opts Tm) (now : Tm) (conf : Config) : GoString :=
  calculateHistoryHash (recordBytes X now conf)

/-- Going from `fs` to `fs2` nothing is removed: every entry of `fs` is in
`fs2` with its name and kind, with an `options` file if it had one, and
unchanged unless its name is `h`. -/
def Keeps (h : GoString) (fs fs2 : FS) : Prop :=
  ∀ x ∈ fs.entries, ∃ y ∈ fs2.entries,
    y.name = x.name ∧ y.isDir = x.isDir ∧ (x.options.isSome = true → y.options.isSome = true)
      ∧ (x.name ≠ h → y = x)

/-- Going from `fs` to `fs2` nothing is added but entries named `h`. -/
def AddsOnly (h : GoString) (fs fs2 : FS) : Prop :=
  ∀ x ∈ fs2.entries, x ∈ fs.entries ∨ x.name = h

/-- A call of the store: recording a configuration at a time, or locating an
identifier. -/
inductive Call (Config Tm : Type)
  | record (now : Tm) (conf : Config)
  | locate (hash : GoString)

/-- The file system state after a call. `WriteHistoryEntry` leaves the state it
returns; `SearchHash` calls `os.ReadDir` and `os.ReadFile` only, which read,
so the state after it is the state before it. -/
def stateAfter (X : Externals Config Opts Tm) (fs : FS) : Call Config Tm → FS
  | .record now conf => (WriteHistoryEntry X now fs conf).2
  | .locate _ => fs

/-- The snapshot an entry holds: its `options` file, if the entry is a
directory and the file is there and readable, deserialized. -/
def snapNode (X : Externals Config Opts Tm) (n : Node) :
    Option (ConfigOptionsHistory Opts Tm) :=
  if n.isDir then
    match n.options with
    | none => none
    | some f =>
      if f.readable then
        match X.jsonUnmarshal f.data with
        | (_, some _) => none
        | (v, none) => some v
      else none
  else none

/-- An entry respects the store invariant: if it is a directory that holds an
`options` file, its name is the hexadecimal SHA-256 hash of the bytes of that
file. -/
def nodeInv (n : Node) : Prop :=
  n.isDir = true →
    match n.options with
    | none => True
    | some f => n.name = calculateHistoryHash f.data

instance (n : Node) : Decidable (nodeInv n) := by
  unfold nodeInv
  cases n.options <;> infer_instance

/-- The store invariant: every directory under the history directory that
holds an `options` file is named by the hexadecimal SHA-256 hash of the bytes
of that file. -/
def StoreInv (fs : FS) : Prop := ∀ n ∈ fs.entries, nodeInv n

instance (fs : FS) : Decidable (StoreInv fs) := by
  unfold StoreInv; infer_instance

/-! ## A sample instantiation of the externals

Configurations are target URLs, times are seconds, and a snapshot is written
as the text `{"url":"<url>","time":<seconds>}`. -/

/-- Decimal digits of `n`, prepended to `acc`. -/
def decimalAux : Nat → Nat → List Nat → List Nat
  | 0, _, acc => acc
  | fuel + 1, n, acc =>
    if n < 10 then (0x30 + n) :: acc
    else decimalAux fuel (n / 10) ((0x30 + n % 10) :: acc)

/-- The decimal representation of `n`. -/
def decimal (n : Nat) : GoString := decimalAux (n + 1) n []

/-- The rest of `s` behind the leading `p`, if `s` starts with `p`. -/
def dropLeading (p s : List Nat) : Option (List Nat) :=
  if stringsHasPrefix s p then some (s.drop p.length) else none

/-- Serialization of the sample snapshots. -/
def sampleMarshal (v : ConfigOptionsHistory GoString Nat) : List Nat × Option Error :=
  (str "\x7b\"url\":\"" ++ v.ConfigOptions ++ str "\",\"time\":" ++ decimal v.Time
    ++ str "\x7d", none)

/-- Deserialization of the sample snapshots; any other text is an error. -/
def sampleUnmarshal (b : List Nat) : ConfigOptionsHistory GoString Nat × Option Error :=
  let bad : ConfigOptionsHistory GoString Nat × Option Error :=
    (⟨[], 0⟩, some (.jsonError "unexpected end of JSON input"))
  match dropLeading (str "\x7b\"url\":\"") b with
  | none => bad
  | some r1 =>
    match dropLeading (str "\",\"time\":") (r1.dropWhile fun c => c != 0x22) with
    | none => bad
    | some r2 =>
      let ds := r2.takeWhile fun c => decide (0x30 ≤ c) && decide (c ≤ 0x39)
      if ds ≠ [] ∧ r2.drop ds.length = str "\x7d" then
        (⟨r1.takeWhile fun c => c != 0x22, ds.foldl (fun n c => 10 * n + (c - 0x30)) 0⟩, none)
      else bad

/-- The sample externals. -/
def sampleX : Externals GoString GoString Nat where
  ToOptions := fun c => c
  jsonMarshal := sampleMarshal
  jsonUnmarshal := sampleUnmarshal
  zeroValue := ⟨[], 0⟩
  caseTable := fun r => r

/-- An empty, writable history directory without a size limit. -/
def emptyStore : FS := ⟨.present true true [], none⟩

/-- A missing history directory that cannot be created. -/
def noStore : FS := ⟨.missing false, none⟩

/-- The sample configuration. -/
def sampleConf : GoString := str "http://t/FUZZ"

/-- The hash of the sample configuration recorded at time 1700000099. -/
def hashA : GoString := str "2e992039a1452962c8bf21c2ad271608252ed5d7f7e52cbd3747578fb7403907"

/-- The hash of the sample configuration recorded at time 1700001357; its
first five digits are those of `hashA`. -/
def hashB : GoString := str "2e992c9394418059d7e7b40516e017503eb3184d4eaa48ef641054b28c5198a3"

/-- A store with two locations that share the prefix `2e992`: the first holds
a well-formed snapshot, the second truncated bytes. -/
def corruptStore : FS :=
  ⟨.present true true
    [⟨hashA, true, true, some ⟨(sampleMarshal ⟨sampleConf, 1700000099⟩).1, true, true⟩⟩,
     ⟨hashB, true, true, some ⟨(sampleMarshal ⟨sampleConf, 1700001357⟩).1.take 20, true, true⟩⟩],
   none⟩

/-- The store `corruptStore` with the first directory name in upper case. -/
def upperStore : FS :=
  ⟨.present true true
    [⟨str "2E992039A1452962C8BF21C2AD271608252ED5D7F7E52CBD3747578FB7403907", true, true,
        some ⟨(sampleMarshal ⟨sampleConf, 1700000099⟩).1, true, true⟩⟩,
     ⟨hashB, true, true, some ⟨(sampleMarshal ⟨sampleConf, 1700001357⟩).1.take 20, true, true⟩⟩],
   none⟩

/-- A store with two locations that share the prefix `2e992`, both with a
well-formed snapshot, listed in the order of their names. -/
def pairStore : FS :=
  ⟨.present true true
    [⟨hashA, true, true, some ⟨(sampleMarshal ⟨sampleConf, 1700000099⟩).1, true, true⟩⟩,
     ⟨hashB, true, true, some ⟨(sampleMarshal ⟨sampleConf, 1700001357⟩).1, true, true⟩⟩],
   none⟩

/-- The store `pairStore` with the name of the second directory in upper case:
sorted by name, that directory now comes first, `E` being less than `e`. -/
def mixedStore : FS :=
  ⟨.present true true
    [⟨str "2E992C9394418059D7E7B40516E017503EB3184D4EAA48EF641054B28C5198A3", true, true,
        some ⟨(sampleMarshal ⟨sampleConf, 1700001357⟩).1, true, true⟩⟩,
     ⟨hashA, true, true, some ⟨(sampleMarshal ⟨sampleConf, 1700000099⟩).1, true, true⟩⟩],
   none⟩

/-- An empty history directory that exists and cannot be listed. -/
def lockedStore : FS := ⟨.present false true [], none⟩

/-- An empty, writable history directory in which no file may grow beyond four
bytes. -/
def limitedStore : FS := ⟨.present true true [], some 4⟩

/-- The store `corruptStore` in which no file may grow beyond four bytes. -/
def fullStore : FS := ⟨corruptStore.root, some 4⟩

/-- The hash of the sample configuration recorded at time 1. -/
def hashC : GoString := str "6745dcc1018be9ba4d6e7171c8e182a2b78c1f923936cc9c59374d3e4d05a4d7"

/-! ## Package `utils`: readers (`io`, `bufio`) -/

/-- The errors of the readers: `io.EOF` and `bufio.ErrBufferFull`. -/
inductive IoError
  | EOF
  | ErrBufferFull
  deriving DecidableEq, Repr

/-- The text of a reader error, what its method `Error()` returns. -/
def IoError.text : IoError → String
  | .EOF => "EOF"
  | .ErrBufferFull => "bufio: buffer full"

/-- An `io.ReadCloser` over a fixed sequence of bytes, such as an open file:
the bytes that have not been read yet. -/
structure ReadCloser where
  rest : List Nat
  deriving DecidableEq, Repr

/-- The method `Read(p)` for a buffer `p` of `n` bytes: as a file does, it
delivers as many of the remaining bytes as fit, and `io.EOF` when none
remain. The result is the bytes read, the error, and the reader after the
call. -/
def ReadCloser.Read (r : ReadCloser) (n : Nat) : (List Nat × Option IoError) × ReadCloser :=
  if r.rest = [] then (([], some .EOF), r)
  else ((r.rest.take n, none), ⟨r.rest.drop n⟩)

/-- The constant `defaultBufSize` of package `bufio`. -/
def defaultBufSize : Nat := 4096

/-- A `bufio.Reader`: the bytes read from the underlying reader and not yet
consumed (`buf[r:w]`), the underlying reader, and the pending error. -/
structure BufioReader where
  buf : List Nat
  rd : ReadCloser
  err : Option IoError
  deriving DecidableEq, Repr

/-- Go `bufio.NewReader(rd)`. -/
def bufioNewReader (rd : ReadCloser) : BufioReader := ⟨[], rd, none⟩

/-- The method `fill` of `bufio.Reader`: one `Read` of the underlying reader
into the free part of the buffer (a reader of this model never returns zero
bytes without an error, so `fill` does not retry). -/
def BufioReader.fill (b : BufioReader) : BufioReader :=
  let r := b.rd.Read (defaultBufSize - b.buf.length)
  ⟨b.buf ++ r.1.1, r.2, r.1.2⟩

/-- Go `bytes.IndexByte`: the index of the first `d` in `s`. -/
def indexByte : List Nat → Nat → Option Nat
  | [], _ => none
  | c :: cs, d => if c = d then some 0 else (indexByte cs d).map fun i => i + 1

/-- The loop of `bufio.Reader.ReadSlice(delim)`: the line up to and including
the delimiter, or what is buffered together with the pending error or with
`ErrBufferFull`. The first argument bounds the number of rounds. -/
def readSliceLoop (delim : Nat) :
    Nat → BufioReader → (List Nat × Option IoError) × BufioReader
  | 0, b => ((b.buf, some .ErrBufferFull), ⟨[], b.rd, b.err⟩)
  | fuel + 1, b =>
    match indexByte b.buf delim with
    | some i => ((b.buf.take (i + 1), none), ⟨b.buf.drop (i + 1), b.rd, b.err⟩)
    | none =>
      match b.err with
      | some e => ((b.buf, some e), ⟨[], b.rd, none⟩)
      | none =>
        if b.buf.length ≥ defaultBufSize then ((b.buf, some .ErrBufferFull), ⟨[], b.rd, none⟩)
        else readSliceLoop delim fuel b.fill

/-- Go `bufio.Reader.ReadSlice(delim)`; every round but the last adds to the
buffer, so `defaultBufSize + 2` rounds are enough. -/
def BufioReader.ReadSlice (b : BufioReader) (delim : Nat) :
    (List Nat × Option IoError) × BufioReader :=
  readSliceLoop delim (defaultBufSize + 2) b

/-- The loop of `bufio.Reader.collectFragments`: full buffers are collected in
`acc` until `ReadSlice` ends without `ErrBufferFull`. -/
def collectLoop (delim : Nat) :
    Nat → BufioReader → List Nat → (List Nat × Option IoError) × BufioReader
  | 0, b, acc => ((acc, some .ErrBufferFull), b)
  | fuel + 1, b, acc =>
    match b.ReadSlice delim with
    | ((frag, none), b1) => ((acc ++ frag, none), b1)
    | ((frag, some .ErrBufferFull), b1) => collectLoop delim fuel b1 (acc ++ frag)
    | ((frag, some e), b1) => ((acc ++ frag, some e), b1)

/-- Go `bufio.Reader.ReadString(delim)`: the bytes up to and including the
first delimiter, or the remaining bytes and the error that ended the input.
Every full buffer passed takes bytes from the input, which bounds the number
of rounds. -/
def BufioReader.ReadString (b : BufioReader) (delim : Nat) :
    (GoString × Option IoError) × BufioReader :=
  collectLoop delim (b.buf.length + b.rd.rest.length + 1) b []

/-! ## Package `utils`: strings, numbers and headers -/

/-- What `ParseRawRequest` takes from outside: `url.Parse` (the URL and the
text of the error), and the parts of package `strings` that work with the
tables of package `unicode`: `TrimFunc(s, unicode.IsSpace)`,
`TrimRightFunc(s, unicode.IsSpace)`, and the comparison `EqualFold` makes from
the first non-ASCII byte on. -/
structure HttpExternals (URL : Type) where
  urlParse : GoString → URL × Option String
  trimFuncSpace : GoString → GoString
  trimRightFuncSpace : GoString → GoString
  equalFoldUnicode : GoString → GoString → Bool

variable {URL : Type}

/-- The table `asciiSpace` of package `strings`: tab, line feed, vertical tab,
form feed, carriage return and space. -/
def asciiSpace (c : Nat) : Bool :=
  c == 0x09 || c == 0x0A || c == 0x0B || c == 0x0C || c == 0x0D || c == 0x20

/-- The second loop of `strings.TrimSpace`, on the reversed string: ASCII
space is dropped from the end; at a non-ASCII byte the rest is left to
`TrimRightFunc`. -/
def trimSpaceEnd (X : HttpExternals URL) : List Nat → GoString
  | [] => []
  | c :: cs =>
    if c ≥ 0x80 then X.trimRightFuncSpace (c :: cs).reverse
    else if asciiSpace c then trimSpaceEnd X cs
    else (c :: cs).reverse

/-- Go `strings.TrimSpace`: ASCII space is dropped from the start, then from
the end; at a non-ASCII byte the rest is left to `TrimFunc`. -/
def stringsTrimSpace (X : HttpExternals URL) : GoString → GoString
  | [] => []
  | c :: cs =>
    if c ≥ 0x80 then X.trimFuncSpace (c :: cs)
    else if asciiSpace c then stringsTrimSpace X cs
    else trimSpaceEnd X (c :: cs).reverse

/-- Go `strings.Split(s, sep)` for a separator of one byte (the program passes
`" "`). -/
def stringsSplit (sep : Nat) : GoString → List GoString
  | [] => [[]]
  | c :: cs =>
    if c = sep then [] :: stringsSplit sep cs
    else
      match stringsSplit sep cs with
      | [] => [[c]]
      | p :: ps => (c :: p) :: ps

/-- Go `strings.Cut(s, sep)` for a separator of one byte. -/
def stringsCut (s : GoString) (sep : Nat) : GoString × GoString × Bool :=
  match indexByte s sep with
  | some i => (s.take i, s.drop (i + 1), true)
  | none => (s, [], false)

/-- Go `strings.SplitN(s, sep, 2)` for a separator of one byte: the string is
cut at the first separator, if there is one. -/
def stringsSplitN2 (s : GoString) (sep : Nat) : List GoString :=
  match indexByte s sep with
  | some i => [s.take i, s.drop (i + 1)]
  | none => [s]

/-- Go `strings.EqualFold`: bytes are compared up to the case of ASCII
letters; from the first non-ASCII byte on the comparison goes through the
tables of package `unicode`. -/
def stringsEqualFold (X : HttpExternals URL) : GoString → GoString → Bool
  | [], [] => true
  | [], _ :: _ => false
  | _ :: _, [] => false
  | a :: s, b :: t =>
    if a ≥ 0x80 ∨ b ≥ 0x80 then X.equalFoldUnicode (a :: s) (b :: t)
    else if a = b then stringsEqualFold X s t
    else if 0x41 ≤ min a b ∧ min a b ≤ 0x5A ∧ max a b = min a b + 0x20 then
      stringsEqualFold X s t
    else false

/-- The constant `strconv.IntSize`: the size of `int` in bits. -/
def intSize : Nat := 64

/-- The digit loop of the fast path of `strconv.Atoi`: `ch -= '0'` on a byte
wraps around below `'0'`, and any result above 9 is a syntax error. -/
def atoiLoop : GoString → Nat → Option Nat
  | [], n => some n
  | ch :: cs, n =>
    let d := if ch < 0x30 then ch + 0xD0 else ch - 0x30
    if d > 9 then none else atoiLoop cs (n * 10 + d)

/-- Go `strconv.Atoi`: short strings take the fast path, which cannot
overflow; the empty string and long strings go to `ParseInt(s, 10, 0)`, where
the size 0 stands for `IntSize`. -/
def Atoi (s : GoString) : Int × Option NumError :=
  if 0 < s.length ∧ s.length < 19 then
    match s with
    | [] => (0, some .ErrSyntax)
    | c :: cs =>
      let s' := if c = 0x2D ∨ c = 0x2B then cs else c :: cs
      if s'.length < 1 then (0, some .ErrSyntax)
      else
        match atoiLoop s' 0 with
        | none => (0, some .ErrSyntax)
        | some n => (if c = 0x2D then -(n : Int) else (n : Int), none)
  else ParseInt s 10 intSize

/-- Source `parseHTTPVersion` (http_request.go:83-103). -/
def parseHTTPVersion (vers : GoString) : Int × Int × Bool :=
  let (_, version, found) := stringsCut vers 0x2F
  if ¬ found then (0, 0, false)
  else
    let (maj, min, found) := stringsCut version 0x2E
    let (major, err) := Atoi maj
    if err.isSome then (0, 0, false)
    else if ¬ found then (major, 0, true)
    else
      let (minor, err) := Atoi min
      if err.isSome then (0, 0, false)
      else (major, minor, true)

/-- The function `validHeaderFieldByte` of package `textproto`: the bytes of
an HTTP token. -/
def validHeaderFieldByte (c : Nat) : Bool :=
  (decide (0x30 ≤ c) && decide (c ≤ 0x39)) || (decide (0x61 ≤ c) && decide (c ≤ 0x7A))
    || (decide (0x41 ≤ c) && decide (c ≤ 0x5A))
    || [0x21, 0x23, 0x24, 0x25, 0x26, 0x27, 0x2A, 0x2B, 0x2D, 0x2E, 0x5E, 0x5F, 0x60, 0x7C,
        0x7E].contains c

/-- The canonical form of a header key: an upper-case letter at the start and
after every `-`, lower-case letters elsewhere. -/
def canonLoop : Bool → GoString → GoString
  | _, [] => []
  | upper, c :: cs =>
    let c' :=
      if upper ∧ 0x61 ≤ c ∧ c ≤ 0x7A then c - 0x20
      else if ¬ upper ∧ 0x41 ≤ c ∧ c ≤ 0x5A then c + 0x20
      else c
    c' :: canonLoop (c' == 0x2D) cs

/-- Go `textproto.CanonicalMIMEHeaderKey`: a key that holds a byte outside the
token bytes is returned as it is. -/
def canonicalMIMEHeaderKey (s : GoString) : GoString :=
  if s.all validHeaderFieldByte then canonLoop true s else s

/-- Go `http.Header`, a map from canonical keys to the values added under
them, as the list of its keys with their values. -/
abbrev Header := List (GoString × List GoString)

/-- The value is appended to the values of the key, the key being added if it
is new. -/
def headerAppend (k v : GoString) : Header → Header
  | [] => [(k, [v])]
  | (k1, vs) :: rest =>
    if k1 = k then (k1, vs ++ [v]) :: rest else (k1, vs) :: headerAppend k v rest

/-- Go `http.Header.Add(key, value)`. -/
def headerAdd (h : Header) (key value : GoString) : Header :=
  headerAppend (canonicalMIMEHeaderKey key) value h

/-- Go `http.Header.Values(key)`. -/
def headerValues (h : Header) (key : GoString) : List GoString :=
  match h.find? fun e => e.1 == canonicalMIMEHeaderKey key with
  | none => []
  | some e => e.2

/-! ## Package `utils`: `ParseRawRequest` -/

/-- Go `http.Request`, with the fields `ParseRawRequest` sets. -/
structure Request (URL : Type) where
  Method : GoString
  URL : URL
  ProtoMajor : Int
  ProtoMinor : Int
  Header : Header
  Body : Option ReadCloser

/-- An error made by `fmt.Errorf`: the format and the texts of the arguments. -/
inductive FmtError
  | errorf (format : String) (args : List String)
  deriving DecidableEq, Repr

/-- Go `http.NewRequest(method, url, nil)`: an empty method stands for `GET`,
the method has to be a token, the URL has to parse; the request is for
HTTP/1.1, with an empty header and no body. -/
def httpNewRequest (X : HttpExternals URL) (method url : GoString) :
    Option (Request URL) × Option String :=
  let method := if method = [] then str "GET" else method
  if ¬ method.all validHeaderFieldByte then (none, some "net/http: invalid method")
  else
    match X.urlParse url with
    | (_, some e) => (none, some e)
    | (u, none) => (some ⟨method, u, 1, 1, [], none⟩, none)

/-- The loop over the header lines of source `ParseRawRequest`
(http_request.go:47-65). Every round takes a line from the input, which
bounds the number of rounds. -/
def headerLoop (X : HttpExternals URL) : Nat → BufioReader → Header → BufioReader × Header
  | 0, reader, header => (reader, header)
  | fuel + 1, reader, header =>
    match reader.ReadString 0x0A with
    | ((line, err), reader1) =>
      let line := stringsTrimSpace X line
      if err.isSome ∨ line = [] then (reader1, header)
      else
        let p := stringsSplitN2 line 0x3A
        if p.length ≠ 2 then headerLoop X fuel reader1 header
        else if stringsEqualFold X (p.getD 0 []) (str "content-length") then
          headerLoop X fuel reader1 header
        else
          headerLoop X fuel reader1
            (headerAdd header (stringsTrimSpace X (p.getD 0 [])) (stringsTrimSpace X (p.getD 1 [])))

/-- Source `ParseRawRequest` (http_request.go:16-77). The body of the request
returned is the reader `r` in the state the reads have left it in. -/
def ParseRawRequest (X : HttpExternals URL) (r : ReadCloser) :
    Option (Request URL) × Option FmtError :=
  match httpNewRequest X (str "") (str "") with
  | (_, some e) => (none, some (.errorf "could not create empty http.Request: %s" [e]))
  | (none, none) => (none, none)
  | (some req, none) =>
    let reader := bufioNewReader r
    match reader.ReadString 0x0A with
    | ((_, some e), _) => (none, some (.errorf "could not read request: %s" [e.text]))
    | ((s, none), reader) =>
      let s := stringsTrimSpace X s
      let parts := stringsSplit 0x20 s
      if parts.length < 3 then (none, some (.errorf "malformed request supplied" []))
      else
        let req := { req with Method := parts.getD 0 [] }
        let (major, minor, ok) := parseHTTPVersion (parts.getD 2 [])
        if ¬ ok then (none, some (.errorf "malformed http protocol version" []))
        else
          let req := { req with ProtoMajor := major, ProtoMinor := minor }
          let (reader, header) := headerLoop X (r.rest.length + 1) reader req.Header
          let req := { req with Header := header }
          match X.urlParse (parts.getD 1 []) with
          | (_, some e) => (none, some (.errorf "could not parse request URL: %s" [e]))
          | (u, none) => (some { req with URL := u, Body := some reader.rd }, none)

/-! ## Notions the statements about `ParseRawRequest` use -/

/-- The first line of the input, the bytes up to and including the first line
feed, if there is one. -/
def firstLine (inp : List Nat) : Option GoString :=
  match indexByte inp 0x0A with
  | some i => some (inp.take (i + 1))
  | none => none

/-- The parts of a request line: the line is trimmed and split at single
spaces. -/
def requestParts (X : HttpExternals URL) (line : GoString) : List GoString :=
  stringsSplit 0x20 (stringsTrimSpace X line)

/-- A decimal digit. -/
def isDecDigit (c : Nat) : Bool := decide (0x30 ≤ c) && decide (c ≤ 0x39)

/-- The value of a string of decimal digits. -/
def decValue (s : GoString) : Nat :=
  s.foldl (fun n c => 10 * n + (c - 0x30)) 0

/-- The value of a decimal integer of the `int` type: an optional sign `+` or
`-`, one decimal digit or more, and a value from -2^63 to 2^63 - 1; none for
any other text. -/
def decInt (s : GoString) : Option Int :=
  match s with
  | [] => none
  | c :: cs =>
    let ds := if c = 0x2D ∨ c = 0x2B then cs else c :: cs
    if ds ≠ [] ∧ ds.all isDecDigit = true then
      if c = 0x2D then
        if decValue ds ≤ 2 ^ 63 then some (-(decValue ds : Int)) else none
      else if decValue ds < 2 ^ 63 then some (decValue ds : Int)
      else none
    else none

/-- The text of `s` before the first `d`, all of `s` when there is none. -/
def textBefore (d : Nat) (s : GoString) : GoString := s.takeWhile fun c => c != d

/-- The text of `s` after the first `d`. -/
def textAfter (d : Nat) (s : GoString) : GoString := (s.dropWhile fun c => c != d).drop 1

/-- The version the words of the claim describe: none without a `/`;
otherwise the major number is the decimal integer between the first `/` and
the following `.` (or the end), the minor number the decimal integer after
that `.`, or 0 when there is no `.`. -/
def versionSpec (vers : GoString) : Int × Int × Bool :=
  if 0x2F ∈ vers then
    match decInt (textBefore 0x2E (textAfter 0x2F vers)) with
    | none => (0, 0, false)
    | some major =>
      if 0x2E ∈ textAfter 0x2F vers then
        match decInt (textAfter 0x2E (textAfter 0x2F vers)) with
        | none => (0, 0, false)
        | some minor => (major, minor, true)
      else (major, 0, true)
  else (0, 0, false)

/-- Sample externals of `ParseRawRequest`: a URL is its text, which parses
unless it holds a control character; the sample tables know no space and no
letter outside ASCII. -/
def sampleH : HttpExternals GoString where
  urlParse := fun s =>
    if s.any fun c => decide (c < 0x20) || c == 0x7F then
      (s, some "net/url: invalid control character in URL")
    else (s, none)
  trimFuncSpace := fun s => s
  trimRightFuncSpace := fun s => s
  equalFoldUnicode := fun _ _ => false

/-- A request with a header line and a body. -/
def sampleRequest : ReadCloser :=
  ⟨str "POST /x HTTP/1.1\nHost: a\n\nBODY"⟩

/-- A request whose `Content-Length` line has a space before the colon. -/
def spacedRequest : ReadCloser :=
  ⟨str "POST /x HTTP/1.1\nContent-Length : 4\ncontent-length: 4\n\nBODY"⟩

/-! ## The shape of `SearchHash` -/

theorem foldl_append_filter {α β : Type} (p : α → Bool) (g : α → β) (l : List α)
    (init : List β) :
    l.foldl (fun acc x => if p x then acc ++ [g x] else acc) init
      = init ++ (l.filter p).map g := by
  induction l generalizing init with
  | nil => simp
  | cons x xs ih =>
    simp only [List.foldl_cons, ih]
    by_cases hx : p x = true <;> simp [hx, List.filter_cons]

theorem foldl_append_filterMap {α β : Type} (f : α → Option β) (step : List β → α → List β)
    (hstep : ∀ acc x, step acc x = acc ++ (f x).toList) (l : List α) (init : List β) :
    l.foldl step init = init ++ l.filterMap f := by
  induction l generalizing init with
  | nil => simp
  | cons x xs ih =>
    simp only [List.foldl_cons, ih, hstep]
    cases hx : f x <;> simp [List.filterMap_cons, hx]

theorem configFromHistory_snapshot (X : Externals Config Opts Tm) (fs : FS) (name : GoString) :
    (if (configFromHistory X fs (filepathJoin HISTORYDIR [name])).2.isSome then none
      else some (configFromHistory X fs (filepathJoin HISTORYDIR [name])).1)
      = snapshotOf X fs name := by
  unfold configFromHistory snapshotOf filepathJoin HISTORYDIR
  simp only [List.nil_append, List.singleton_append]
  rcases hr : osReadFile fs [name, str "options"] with ⟨bytes, err⟩
  cases err with
  | some e => simp
  | none =>
    simp only [Option.isSome_none, Bool.false_eq_true, if_false]
    rcases hu : X.jsonUnmarshal bytes with ⟨v, err2⟩
    cases err2 <;> simp

theorem SearchHash_short (X : Externals Config Opts Tm) (fs : FS) (s : GoString)
    (h : s.length < 6) : SearchHash X fs s = ([], 0, some errBadHash) := by
  unfold SearchHash
  simp [h, errBadHash]

theorem SearchHash_badPosition (X : Externals Config Opts Tm) (fs : FS) (s : GoString)
    (h : 6 ≤ s.length) (hp : (ParseInt (s.drop 5) 16 32).2 ≠ none) :
    SearchHash X fs s = ([], 0, some errBadPosition) := by
  unfold SearchHash
  have h6 : ¬ s.length < 6 := by omega
  rcases hr : ParseInt (s.drop 5) 16 32 with ⟨position, err⟩
  rw [hr] at hp
  cases err with
  | none => exact absurd rfl hp
  | some e => simp [h6, hr, errBadPosition]

theorem SearchHash_unlistable (X : Externals Config Opts Tm) (fs : FS) (s : GoString)
    (hd : Decodes s) (hl : ¬ Listable fs) :
    SearchHash X fs s = ([], 0, (osReadDir fs HISTORYDIR).2) := by
  unfold SearchHash
  obtain ⟨h6, hp⟩ := hd
  have h6' : ¬ s.length < 6 := by omega
  rcases hr : ParseInt (s.drop 5) 16 32 with ⟨position, err⟩
  rw [hr] at hp
  simp only at hp
  subst hp
  rcases hd : osReadDir fs HISTORYDIR with ⟨dirs, err⟩
  unfold Listable at hl
  rw [hd] at hl
  cases err with
  | none => exact absurd rfl hl
  | some e => simp [h6']

theorem SearchHash_listed (X : Externals Config Opts Tm) (fs : FS) (s : GoString)
    (hd : Decodes s) (hl : Listable fs) :
    SearchHash X fs s = (locateSpec X fs s, (ParseInt (s.drop 5) 16 32).1, none) := by
  unfold SearchHash
  obtain ⟨h6, hp⟩ := hd
  have h6' : ¬ s.length < 6 := by omega
  rcases hr : ParseInt (s.drop 5) 16 32 with ⟨position, err⟩
  rw [hr] at hp
  simp only at hp
  subst hp
  unfold Listable at hl
  unfold locateSpec
  rcases hd : osReadDir fs HISTORYDIR with ⟨dirs, err⟩
  rw [hd] at hl
  simp only at hl
  subst hl
  simp only [h6', if_false, Option.isSome_none, Bool.false_eq_true]
  have h1 : dirs.foldl
      (fun matched filename =>
        if filename.IsDir then
          if stringsHasPrefix (stringsToLower X.caseTable filename.Name)
              (stringsToLower X.caseTable (s.take 5)) then
            matched ++ [filename.Name]
          else matched
        else matched) ([] : List GoString)
      = (dirs.filter (matchesEntry X.caseTable s)).map fun e => e.Name := by
    have := foldl_append_filter (matchesEntry X.caseTable s) (fun e : DirEntry => e.Name) dirs []
    simp only [List.nil_append] at this
    rw [← this]
    congr 1
    funext matched filename
    unfold matchesEntry
    cases filename.IsDir <;> simp
  rw [h1]
  rw [foldl_append_filterMap (fun name => snapshotOf X fs name)]
  · simp only [List.nil_append, List.filterMap_map]
    rfl
  · intro acc name
    rw [← configFromHistory_snapshot]
    rcases hc : configFromHistory X fs (filepathJoin HISTORYDIR [name]) with ⟨copts, err⟩
    cases err <;> simp

theorem osReadDir_error_is_pathError (fs : FS) (name : Path) (e : Error)
    (h : (osReadDir fs name).2 = some e) : ∃ op p no, e = .pathError op p no := by
  unfold osReadDir at h
  split at h
  · simp at h; exact ⟨_, _, _, h.symm⟩
  · split at h
    · split at h <;> simp at h
      exact ⟨_, _, _, h.symm⟩
    · split at h
      · simp at h; exact ⟨_, _, _, h.symm⟩
      · split at h <;> simp at h
        exact ⟨_, _, _, h.symm⟩
    · simp at h; exact ⟨_, _, _, h.symm⟩

/-! ## Locating: results and errors (C2, C3, C4, C7) -/

/-- C2: for every identifier that decodes and every file system state whose
history directory can be listed, the sequence `SearchHash` returns is the
listing of the directory, in listing order, restricted to the directories
whose lower-cased name starts with the lower-cased first five bytes of the
identifier, each mapped to the snapshot deserialized from its `options` file,
the entries whose file cannot be read or deserialized left out. -/
theorem C2_sequence_is_filtered_listing (X : Externals Config Opts Tm) (fs : FS)
    (s : GoString) (hd : Decodes s) (hl : Listable fs) :
    (SearchHash X fs s).1 = locateSpec X fs s := by
  rw [SearchHash_listed X fs s hd hl]

/-- Witness of C2: a well-formed and a corrupt location under the same prefix
give exactly one snapshot, the well-formed one. -/
theorem C2_sequence_is_filtered_listing_witness :
    Decodes (str "2e9920") ∧ Listable corruptStore ∧
      (SearchHash sampleX corruptStore (str "2e9920")).1 = [⟨sampleConf, 1700000099⟩] :=
  ⟨by decide, by decide,
    (C2_sequence_is_filtered_listing sampleX corruptStore (str "2e9920")
      (by decide) (by decide)).trans (by decide)⟩

/-- C3: `SearchHash` returns a non-nil error if and only if the identifier
fails to decode or the history directory cannot be listed; entries that fail
to read or deserialize never make the error non-nil. -/
theorem C3_error_iff_decode_or_listing (X : Externals Config Opts Tm) (fs : FS)
    (s : GoString) :
    (SearchHash X fs s).2.2 ≠ none ↔ (¬ Decodes s ∨ ¬ Listable fs) := by
  by_cases hd : Decodes s
  · by_cases hl : Listable fs
    · rw [SearchHash_listed X fs s hd hl]
      simp [hd, hl]
    · rw [SearchHash_unlistable X fs s hd hl]
      simp only [hd, hl, not_true_eq_false, not_false_eq_true, or_true, iff_true]
      exact hl
  · simp only [hd, not_false_eq_true, true_or, iff_true]
    by_cases h6 : s.length < 6
    · rw [SearchHash_short X fs s h6]; simp
    · have h6' : 6 ≤ s.length := by omega
      have hp : (ParseInt (s.drop 5) 16 32).2 ≠ none := fun hp => hd ⟨h6', hp⟩
      rw [SearchHash_badPosition X fs s h6' hp]; simp

/-- C4: for every string shorter than six bytes `SearchHash` fails with the
error "bad FFUFHASH value" (empty sequence, position 0); for every string of
six bytes or more that error is not the one returned. -/
theorem C4_short_identifier (X : Externals Config Opts Tm) (fs : FS) (s : GoString) :
    (s.length < 6 → SearchHash X fs s = ([], 0, some (errorsNew "bad FFUFHASH value"))) ∧
    (6 ≤ s.length → (SearchHash X fs s).2.2 ≠ some (errorsNew "bad FFUFHASH value")) := by
  refine ⟨fun h => SearchHash_short X fs s h, fun h6 => ?_⟩
  by_cases hp : (ParseInt (s.drop 5) 16 32).2 = none
  · have hd : Decodes s := ⟨h6, hp⟩
    by_cases hl : Listable fs
    · rw [SearchHash_listed X fs s hd hl]; simp
    · rw [SearchHash_unlistable X fs s hd hl]
      intro he
      obtain ⟨op, q, no, hq⟩ := osReadDir_error_is_pathError fs HISTORYDIR _ he
      simp [errorsNew] at hq
  · rw [SearchHash_badPosition X fs s h6 hp]
    simp [errBadPosition, errorsNew]

/-- Witness of C4: the empty string and "abc" are rejected as too short,
"abcde0" is not. -/
theorem C4_short_identifier_witness :
    SearchHash sampleX emptyStore [] = ([], 0, some (errorsNew "bad FFUFHASH value")) ∧
    SearchHash sampleX emptyStore (str "abc")
      = ([], 0, some (errorsNew "bad FFUFHASH value")) ∧
    (SearchHash sampleX noStore (str "abcde0")).2.2 ≠ some (errorsNew "bad FFUFHASH value") :=
  ⟨(C4_short_identifier sampleX emptyStore []).1 (by decide),
   (C4_short_identifier sampleX emptyStore (str "abc")).1 (by decide),
   (C4_short_identifier sampleX noStore (str "abcde0")).2 (by decide)⟩

/-- C7: an identifier on which decoding fails (fewer than six bytes, or a
remainder that does not parse) is rejected with one of the two identifier
errors, and the result of `SearchHash` is the same for every file system
state: the history directory is neither listed nor read. -/
theorem C7_malformed_rejected_before_listing (X : Externals Config Opts Tm) (s : GoString)
    (fs : FS) (h : ¬ Decodes s) :
    (SearchHash X fs s = ([], 0, some errBadHash)
        ∨ SearchHash X fs s = ([], 0, some errBadPosition)) ∧
      ∀ fs2 : FS, SearchHash X fs2 s = SearchHash X fs s := by
  by_cases h6 : s.length < 6
  · exact ⟨Or.inl (SearchHash_short X fs s h6), fun fs2 => by
      rw [SearchHash_short X fs s h6, SearchHash_short X fs2 s h6]⟩
  · have h6' : 6 ≤ s.length := by omega
    have hp : (ParseInt (s.drop 5) 16 32).2 ≠ none := fun hp => h ⟨h6', hp⟩
    exact ⟨Or.inr (SearchHash_badPosition X fs s h6' hp), fun fs2 => by
      rw [SearchHash_badPosition X fs s h6' hp, SearchHash_badPosition X fs2 s h6' hp]⟩

/-- Witness of C7: "abcde-ZZ" does not decode, and a missing history directory
gives the same result as a store with two locations. -/
theorem C7_malformed_rejected_before_listing_witness :
    ¬ Decodes (str "abcde-ZZ") ∧
      SearchHash sampleX noStore (str "abcde-ZZ") = ([], 0, some errBadPosition) ∧
      SearchHash sampleX corruptStore (str "abcde-ZZ")
        = SearchHash sampleX noStore (str "abcde-ZZ") :=
  have h := C7_malformed_rejected_before_listing sampleX (str "abcde-ZZ") noStore (by decide)
  ⟨by decide, by decide, h.2 corruptStore⟩

/-! ## Decoding the position (C5, C6) -/

theorem isHexDigit_cases (c : Nat) (h : isHexDigit c = true) :
    (0x30 ≤ c ∧ c ≤ 0x39) ∨ (0x41 ≤ c ∧ c ≤ 0x46) ∨ (0x61 ≤ c ∧ c ≤ 0x66) := by
  unfold isHexDigit at h
  simp only [Bool.or_eq_true, Bool.and_eq_true, decide_eq_true_eq] at h
  tauto

theorem lower_letter (c : Nat) (h : (0x41 ≤ c ∧ c ≤ 0x5A) ∨ (0x61 ≤ c ∧ c ≤ 0x7A)) :
    lower c = lowerByte c := by
  unfold lower lowerByte
  rcases h with h | h
  · obtain ⟨h1, h2⟩ := h
    interval_cases c <;> rfl
  · obtain ⟨h1, h2⟩ := h
    interval_cases c <;> rfl

theorem digitOf_hex (c : Nat) (h : isHexDigit c = true) :
    digitOf c = some (hexVal c) ∧ hexVal c < 16 := by
  rcases isHexDigit_cases c h with h | h | h
  · obtain ⟨h1, h2⟩ := h
    interval_cases c <;> decide
  · obtain ⟨h1, h2⟩ := h
    interval_cases c <;> decide
  · obtain ⟨h1, h2⟩ := h
    interval_cases c <;> decide

theorem lt_of_lor_lt (c b n : Nat) (h : c ||| b < 2 ^ n) : c < 2 ^ n := by
  by_contra hc
  obtain ⟨i, hi, hbit⟩ := Nat.ge_two_pow_implies_high_bit_true (Nat.le_of_not_lt hc)
  have hbit2 : (c ||| b).testBit i = true := by simp [hbit]
  have h1 := Nat.testBit_implies_ge hbit2
  have h2 : 2 ^ n ≤ 2 ^ i := Nat.pow_le_pow_right (by omega) hi
  omega

theorem hex_of_digitOf (c d : Nat) (h : digitOf c = some d) (hd : d < 16) :
    isHexDigit c = true := by
  have hle : lower c < 2 ^ 7 → c < 2 ^ 7 := lt_of_lor_lt c 0x20 7
  unfold digitOf at h
  split at h
  · rename_i h1
    unfold isHexDigit
    simp [h1.1, h1.2]
  · split at h
    · rename_i h1 h2
      simp only [Option.some.injEq] at h
      have hl : lower c ≤ 0x66 := by omega
      have hc : c < 128 := by
        have := hle (by norm_num; omega)
        norm_num at this; exact this
      have h61 := h2.1
      clear h h1 h2 hle hd
      interval_cases c <;> first | (exfalso; revert h61; decide) | (exfalso; revert hl; decide) | decide
    · simp at h

theorem hexFold_ge (cs : GoString) (n : Nat) :
    n ≤ cs.foldl (fun n c => 16 * n + hexVal c) n := by
  induction cs generalizing n with
  | nil => simp
  | cons c cs ih =>
    simp only [List.foldl_cons]
    exact le_trans (by omega) (ih _)

theorem parseUintLoop_hex (cs : GoString) (n : Nat) (hcs : cs.all isHexDigit = true)
    (hn : n ≤ 4294967295) :
    parseUintLoop 16 1152921504606846976 4294967295 cs n
      = if cs.foldl (fun n c => 16 * n + hexVal c) n ≤ 4294967295
        then (cs.foldl (fun n c => 16 * n + hexVal c) n, none)
        else (4294967295, some .ErrRange) := by
  induction cs generalizing n with
  | nil => simp [parseUintLoop, hn]
  | cons c cs ih =>
    simp only [List.all_cons, Bool.and_eq_true] at hcs
    obtain ⟨hd, hd16⟩ := digitOf_hex c hcs.1
    have hge := hexFold_ge cs (16 * n + hexVal c)
    simp only [parseUintLoop, hd, List.foldl_cons]
    have e1 : (n * 16) % 2 ^ 64 = n * 16 := Nat.mod_eq_of_lt (by omega)
    have e2 : (n * 16 + hexVal c) % 2 ^ 64 = n * 16 + hexVal c := Nat.mod_eq_of_lt (by omega)
    have e3 : 16 * n + hexVal c = n * 16 + hexVal c := by omega
    rw [e3] at hge ⊢
    simp only [e1]
    simp only [e2]
    have c1 : ¬ hexVal c ≥ 16 := by omega
    have c2 : ¬ n ≥ 1152921504606846976 := by omega
    simp only [c1, c2, if_false]
    by_cases hbig : n * 16 + hexVal c > 4294967295
    · have c3 : n * 16 + hexVal c < n * 16 ∨ n * 16 + hexVal c > 4294967295 := Or.inr hbig
      have c4 : ¬ cs.foldl (fun n c => 16 * n + hexVal c) (n * 16 + hexVal c) ≤ 4294967295 := by
        omega
      simp only [c3, c4, if_true, if_false]
    · have c3 : ¬ (n * 16 + hexVal c < n * 16 ∨ n * 16 + hexVal c > 4294967295) := by omega
      simp only [c3, if_false]
      exact ih _ hcs.2 (by omega)

theorem ParseInt_hex (r : GoString) (hne : r ≠ []) (hr : r.all isHexDigit = true) :
    ParseInt r 16 32
      = if hexValue r ≤ 2147483647 then ((hexValue r : Int), none)
        else (2147483647, some .ErrRange) := by
  cases r with
  | nil => exact absurd rfl hne
  | cons c cs =>
    have hc : isHexDigit c = true := by
      simp only [List.all_cons, Bool.and_eq_true] at hr
      exact hr.1
    have hsign : ¬ (c = 0x2B ∨ c = 0x2D) := by
      rcases isHexDigit_cases c hc with h | h | h <;> omega
    have hneg : ¬ c = 0x2D := fun h => hsign (Or.inr h)
    have hpos : ¬ c = 0x2B := fun h => hsign (Or.inl h)
    have hne2 : ¬ (c :: cs) = [] := by simp
    have hloop := parseUintLoop_hex (c :: cs) 0 hr (by omega)
    have hcut : (2 ^ 64 - 1) / 16 + 1 = 1152921504606846976 := by norm_num
    have hmax : 2 ^ 32 - 1 = 4294967295 := by norm_num
    unfold ParseInt ParseUint hexValue
    generalize (c :: cs).foldl (fun n c => 16 * n + hexVal c) 0 = v at hloop ⊢
    simp only [hpos, hneg, or_self, if_false, hne2, hcut, hmax, hloop, decide_False]
    by_cases hv : v ≤ 4294967295
    · by_cases hv2 : v ≤ 2147483647
      · have h3 : ¬ 2147483648 ≤ v := by omega
        simp [hv, hv2, h3]
      · have h3 : 2147483648 ≤ v := by omega
        simp [hv, hv2, h3]
    · have hv2 : ¬ v ≤ 2147483647 := by omega
      simp [hv, hv2]

theorem parseUintLoop_result (base cutoff maxVal : Nat) (hb : base ≤ 16) (cs : GoString)
    (n : Nat) :
    ((parseUintLoop base cutoff maxVal cs n).2 = none → cs.all isHexDigit = true) ∧
    ((parseUintLoop base cutoff maxVal cs n).2 = some .ErrRange →
      (parseUintLoop base cutoff maxVal cs n).1 = maxVal) := by
  induction cs generalizing n with
  | nil => simp [parseUintLoop]
  | cons c cs ih =>
    unfold parseUintLoop
    cases hd : digitOf c with
    | none => simp
    | some d =>
      simp only
      by_cases h1 : d ≥ base
      · simp [h1]
      · by_cases h2 : n ≥ cutoff
        · simp [h1, h2]
        · have hc : isHexDigit c = true := hex_of_digitOf c d hd (by omega)
          simp only [h1, h2, if_false, List.all_cons, hc, Bool.true_and]
          split
          · simp
          · exact ih _

theorem ParseInt_ok_signedHex (r : GoString) (h : (ParseInt r 16 32).2 = none) :
    SignedHex r := by
  cases r with
  | nil => simp [ParseInt] at h
  | cons c cs =>
    unfold ParseInt ParseUint at h
    unfold SignedHex
    have hcut : (2 ^ 64 - 1) / 16 + 1 = 1152921504606846976 := by norm_num
    have hmax : 2 ^ 32 - 1 = 4294967295 := by norm_num
    simp only [hcut, hmax] at h
    by_cases hs : c = 0x2B ∨ c = 0x2D
    · simp only [hs, if_true] at h ⊢
      by_cases hne : cs = []
      · simp [hne] at h
      · simp only [hne, if_false] at h
        refine ⟨hne, ?_⟩
        have hres := parseUintLoop_result 16 1152921504606846976 4294967295 (by omega) cs 0
        rcases hl : parseUintLoop 16 1152921504606846976 4294967295 cs 0 with ⟨un, err⟩
        rw [hl] at h hres
        cases err with
        | none => exact hres.1 rfl
        | some e =>
          exfalso
          cases e with
          | ErrSyntax => simp at h
          | ErrRange =>
            have hun : un = 4294967295 := hres.2 rfl
            subst hun
            by_cases hneg : c = 0x2D <;> simp [hneg] at h
    · simp only [hs, if_false] at h ⊢
      have hneg : ¬ c = 0x2D := fun hc => hs (Or.inr hc)
      have hne : ¬ (c :: cs) = [] := by simp
      simp only [hne, if_false] at h
      have hres := parseUintLoop_result 16 1152921504606846976 4294967295 (by omega) (c :: cs) 0
      rcases hl : parseUintLoop 16 1152921504606846976 4294967295 (c :: cs) 0 with ⟨un, err⟩
      rw [hl] at h hres
      cases err with
      | none => exact hres.1 rfl
      | some e =>
        exfalso
        cases e with
        | ErrSyntax => simp at h
        | ErrRange =>
          have hun : un = 4294967295 := hres.2 rfl
          subst hun
          simp [hneg] at h

/-- C5: for every identifier of six bytes or more whose remainder consists of
hexadecimal digits only, decoding succeeds if and only if the base-16 value of
the remainder is at most 2^31 - 1; when it succeeds and the history directory
can be listed, the position returned is that value; when it fails, the error
is "bad positional value in FFUFHASH". -/
theorem C5_position_decoding (X : Externals Config Opts Tm) (fs : FS) (s : GoString)
    (h6 : 6 ≤ s.length) (hhex : (s.drop 5).all isHexDigit = true) :
    (Decodes s ↔ hexValue (s.drop 5) ≤ 2 ^ 31 - 1) ∧
    (Decodes s → Listable fs → (SearchHash X fs s).2 = ((hexValue (s.drop 5) : Int), none)) ∧
    (¬ Decodes s → SearchHash X fs s
      = ([], 0, some (errorsNew "bad positional value in FFUFHASH"))) := by
  have hne : s.drop 5 ≠ [] := by
    intro h
    have := congrArg List.length h
    simp at this
    omega
  have hp := ParseInt_hex (s.drop 5) hne hhex
  have hiff : Decodes s ↔ hexValue (s.drop 5) ≤ 2 ^ 31 - 1 := by
    unfold Decodes
    rw [hp]
    by_cases hv : hexValue (s.drop 5) ≤ 2147483647
    · simp [hv, h6]
    · simp [hv]
  refine ⟨hiff, ?_, ?_⟩
  · intro hd hl
    rw [SearchHash_listed X fs s hd hl, hp]
    have hv : hexValue (s.drop 5) ≤ 2147483647 := by
      have := hiff.mp hd
      norm_num at this
      exact this
    simp [hv]
  · intro hd
    exact SearchHash_badPosition X fs s h6 (fun hq => hd ⟨h6, hq⟩)

/-- Witness of C5: "abcde1f" gives position 31, "abcde0" gives position 0, and
"abcde80000000" is rejected with the position error. -/
theorem C5_position_decoding_witness :
    (SearchHash sampleX emptyStore (str "abcde1f")).2 = (31, none) ∧
    (SearchHash sampleX emptyStore (str "abcde0")).2 = (0, none) ∧
    SearchHash sampleX emptyStore (str "abcde80000000")
      = ([], 0, some (errorsNew "bad positional value in FFUFHASH")) :=
  ⟨(C5_position_decoding sampleX emptyStore (str "abcde1f") (by decide) (by decide)).2.1
      (by decide) (by decide),
   (C5_position_decoding sampleX emptyStore (str "abcde0") (by decide) (by decide)).2.1
      (by decide) (by decide),
   (C5_position_decoding sampleX emptyStore (str "abcde80000000") (by decide) (by decide)).2.2
      (by decide)⟩

/-- C6, as stated, fails: the decode step accepts "zzzzz0", whose first five
bytes are no hexadecimal digits, and "abcde-1f", whose remainder carries a
sign; `SearchHash` returns positions 0 and -31 for them without an error. -/
theorem C6_counterexample :
    SearchHash sampleX emptyStore (str "zzzzz0") = ([], 0, none) ∧
      ¬ MatchesFormat (str "zzzzz0") ∧
    SearchHash sampleX emptyStore (str "abcde-1f") = ([], -31, none) ∧
      ¬ MatchesFormat (str "abcde-1f") := by
  refine ⟨by decide, by decide, by decide, by decide⟩

/-- C6, amended: every identifier on which `SearchHash` returns neither of its
two identifier errors has six bytes or more, and its remainder after the
first five bytes is an optional sign `+` or `-` followed by one hexadecimal
digit or more and nothing else; the first five bytes are not examined. -/
theorem C6_accepted_identifier_shape (X : Externals Config Opts Tm) (fs : FS) (s : GoString)
    (h1 : (SearchHash X fs s).2.2 ≠ some (errorsNew "bad FFUFHASH value"))
    (h2 : (SearchHash X fs s).2.2 ≠ some (errorsNew "bad positional value in FFUFHASH")) :
    6 ≤ s.length ∧ SignedHex (s.drop 5) := by
  have h6 : 6 ≤ s.length := by
    by_contra h
    exact h1 (by rw [SearchHash_short X fs s (by omega)]; rfl)
  have hp : (ParseInt (s.drop 5) 16 32).2 = none := by
    by_contra h
    exact h2 (by rw [SearchHash_badPosition X fs s h6 h]; rfl)
  exact ⟨h6, ParseInt_ok_signedHex _ hp⟩

/-- Witness of C6, amended: "abcde-1f" is accepted and has the stated shape. -/
theorem C6_accepted_identifier_shape_witness :
    6 ≤ (str "abcde-1f").length ∧ SignedHex ((str "abcde-1f").drop 5) :=
  C6_accepted_identifier_shape sampleX emptyStore (str "abcde-1f") (by decide) (by decide)

/-! ## Letter case (C8) -/

theorem caseEq_lt (a b : Nat) (h : caseEq a b) : a < 0x80 ↔ b < 0x80 := by
  unfold caseEq lowerByte at h
  split at h <;> split at h <;> omega

theorem caseEq_high (a b : Nat) (h : caseEq a b) (ha : ¬ a < 0x80) : a = b := by
  unfold caseEq lowerByte at h
  split at h <;> split at h <;> omega

theorem caseEq_high_right (a b : Nat) (h : caseEq a b) (hb : ¬ b < 0x80) : a = b := by
  unfold caseEq lowerByte at h
  split at h <;> split at h <;> omega

theorem caseEqual_all_ascii (s t : GoString) (h : CaseEqual s t) :
    s.all (fun c => decide (c < 0x80)) = t.all (fun c => decide (c < 0x80)) := by
  induction h with
  | nil => rfl
  | cons hab _ ih =>
    simp only [List.all_cons, ih]
    congr 1
    exact decide_eq_decide.mpr (caseEq_lt _ _ hab)

theorem caseEqual_map_lower (s t : GoString) (h : CaseEqual s t) :
    s.map lowerByte = t.map lowerByte := by
  induction h with
  | nil => rfl
  | cons hab _ ih =>
    simp only [List.map_cons, ih]
    congr 1

theorem utf8First_lo (b sz lo hi : Nat) (h : utf8First b = some (sz, lo, hi)) : 0x80 ≤ lo := by
  unfold utf8First at h
  repeat' split at h
  all_goals simp at h
  all_goals omega

/-- The test of a continuation byte gives the same answer on bytes that are
equal up to case, and bytes that pass it are equal. -/
theorem cont_caseEq (x y lo hi : Nat) (h : caseEq x y) (hlo : 0x80 ≤ lo) :
    ((x < lo ∨ hi < x) ↔ (y < lo ∨ hi < y)) ∧ (¬ (x < lo ∨ hi < x) → x = y) := by
  by_cases hx : x < 0x80
  · have hy : y < 0x80 := (caseEq_lt x y h).mp hx
    constructor
    · constructor <;> intro _ <;> left <;> omega
    · intro hn; exfalso; apply hn; left; omega
  · have := caseEq_high x y h hx
    subst this
    exact ⟨Iff.rfl, fun _ => rfl⟩

theorem decodeRune_caseEq_high (a : Nat) (ha : ¬ a < 0x80) (s t : GoString)
    (h : CaseEqual s t) : decodeRune (a :: s) = decodeRune (a :: t) := by
  simp only [decodeRune, ha, if_false]
  cases hf : utf8First a with
  | none => rfl
  | some p =>
    obtain ⟨sz, lo, hi⟩ := p
    have hlo := utf8First_lo a sz lo hi hf
    have hlen := List.Forall₂.length_eq h
    simp only [hlen]
    by_cases hshort : t.length + 1 < sz
    · simp [hshort]
    · simp only [hshort, if_false]
      cases h with
      | nil => rfl
      | cons h1 hr1 =>
        rename_i s1 t1 r1 q1
        obtain ⟨hc1, he1⟩ := cont_caseEq s1 t1 lo hi h1 hlo
        by_cases hb1 : s1 < lo ∨ hi < s1
        · have hb1' := hc1.mp hb1
          simp [hb1, hb1']
        · have hb1' : ¬ (t1 < lo ∨ hi < t1) := fun hh => hb1 (hc1.mpr hh)
          have := he1 hb1
          subst this
          simp only [hb1, if_false]
          by_cases hsz2 : sz ≤ 2
          · simp [hsz2]
          · simp only [hsz2, if_false]
            cases hr1 with
            | nil => rfl
            | cons h2 hr2 =>
              rename_i s2 t2 r2 q2
              obtain ⟨hc2, he2⟩ := cont_caseEq s2 t2 0x80 0xBF h2 (le_refl _)
              by_cases hb2 : s2 < 0x80 ∨ 0xBF < s2
              · have hb2' := hc2.mp hb2
                simp [hb2, hb2']
              · have := he2 hb2
                subst this
                simp only [hb2, if_false]
                by_cases hsz3 : sz ≤ 3
                · simp [hsz3]
                · simp only [hsz3, if_false]
                  cases hr2 with
                  | nil => rfl
                  | cons h3 hr3 =>
                    rename_i s3 t3 r3 q3
                    obtain ⟨hc3, he3⟩ := cont_caseEq s3 t3 0x80 0xBF h3 (le_refl _)
                    by_cases hb3 : s3 < 0x80 ∨ 0xBF < s3
                    · have hb3' := hc3.mp hb3
                      simp [hb3, hb3']
                    · have := he3 hb3
                      subst this
                      rfl

theorem decodeRune_caseEq (tbl : Nat → Nat) (a b : Nat) (s t : GoString)
    (hab : caseEq a b) (h : CaseEqual s t) :
    (decodeRune (a :: s)).2 = (decodeRune (b :: t)).2 ∧
      unicodeToLower tbl (decodeRune (a :: s)).1 = unicodeToLower tbl (decodeRune (b :: t)).1 := by
  by_cases ha : a < 0x80
  · have hb : b < 0x80 := (caseEq_lt a b hab).mp ha
    have ha' : a ≤ 0x7F := by omega
    have hb' : b ≤ 0x7F := by omega
    simp only [decodeRune, ha, hb, if_true, unicodeToLower, ha', hb', true_and]
    exact hab
  · have := caseEq_high a b hab ha
    subst this
    rw [decodeRune_caseEq_high a ha s t h]
    exact ⟨rfl, rfl⟩

theorem mapRunes_caseEqual (tbl : Nat → Nat) (fuel : Nat) (s t : GoString)
    (h : CaseEqual s t) :
    mapRunes (unicodeToLower tbl) fuel s = mapRunes (unicodeToLower tbl) fuel t := by
  induction fuel generalizing s t with
  | zero => simp [mapRunes]
  | succ n ih =>
    cases h with
    | nil => rfl
    | cons hab hr =>
      rename_i a b s1 t1
      have hfull : CaseEqual (a :: s1) (b :: t1) := List.Forall₂.cons hab hr
      obtain ⟨hw, hl⟩ := decodeRune_caseEq tbl a b s1 t1 hab hr
      simp only [mapRunes, hw, hl]
      congr 1
      exact ih _ _ (List.forall₂_drop _ hfull)

theorem stringsToLower_caseEqual (tbl : Nat → Nat) (s t : GoString) (h : CaseEqual s t) :
    stringsToLower tbl s = stringsToLower tbl t := by
  unfold stringsToLower stringsMap
  rw [caseEqual_all_ascii s t h, caseEqual_map_lower s t h, List.Forall₂.length_eq h,
    mapRunes_caseEqual tbl _ s t h]

/-! ## Entries of the history directory -/

theorem lookupNode_some (d : GoString) (es : List Node) (n : Node)
    (h : lookupNode d es = some n) : n.name = d ∧ n ∈ es := by
  unfold lookupNode at h
  have h1 := List.find?_some h
  have h2 := List.mem_of_find?_eq_some h
  exact ⟨by simpa using h1, h2⟩

theorem lookupNode_of_mem_nodup (es : List Node) (hn : (es.map fun n => n.name).Nodup)
    (n : Node) (hmem : n ∈ es) : lookupNode n.name es = some n := by
  induction es with
  | nil => simp at hmem
  | cons m ms ih =>
    simp only [List.map_cons, List.nodup_cons, List.mem_map, not_exists, not_and] at hn
    unfold lookupNode
    rw [List.find?_cons]
    by_cases hm : m.name = n.name
    · rcases List.mem_cons.mp hmem with h | h
      · subst h; simp
      · exact absurd hm.symm (hn.1 n h)
    · rcases List.mem_cons.mp hmem with h | h
      · subst h; exact absurd rfl hm
      · have : (m.name == n.name) = false := by simpa using hm
        rw [this]
        exact ih hn.2 h

theorem snapshotOf_lookup (X : Externals Config Opts Tm) (fs : FS) (l w : Bool)
    (es : List Node) (hroot : fs.root = .present l w es) (name : GoString) (n : Node)
    (h : lookupNode name es = some n) : snapshotOf X fs name = snapNode X n := by
  unfold snapshotOf osReadFile snapNode
  simp only [hroot, h]
  cases hd : n.isDir with
  | false => simp
  | true =>
    simp only [Bool.not_eq_true, Bool.true_eq_false, if_false, ne_eq, not_true_eq_false, if_true]
    cases ho : n.options with
    | none => simp
    | some f =>
      by_cases hr : f.readable = true <;> simp [hr]


theorem locateSpec_present (X : Externals Config Opts Tm) (fs : FS) (w : Bool)
    (es : List Node) (hroot : fs.root = .present true w es)
    (hu : (es.map fun n => n.name).Nodup) (s : GoString) :
    locateSpec X fs s
      = (es.filter fun n => matchesEntry X.caseTable s ⟨n.name, n.isDir⟩).filterMap
          (snapNode X) := by
  unfold locateSpec osReadDir HISTORYDIR
  simp only [hroot, if_true, List.filter_map, List.filterMap_map]
  apply List.filterMap_congr
  intro n hn
  have hmem : n ∈ es := (List.mem_filter.mp hn).1
  simp only [Function.comp]
  exact snapshotOf_lookup X fs true w es hroot n.name n (lookupNode_of_mem_nodup es hu n hmem)

theorem matchesEntry_take (tbl : Nat → Nat) (s1 s2 : GoString) (e : DirEntry)
    (h : stringsToLower tbl (s1.take 5) = stringsToLower tbl (s2.take 5)) :
    matchesEntry tbl s1 e = matchesEntry tbl s2 e := by
  unfold matchesEntry
  rw [h]

theorem locateSpec_take (X : Externals Config Opts Tm) (fs : FS) (s1 s2 : GoString)
    (h : stringsToLower X.caseTable (s1.take 5) = stringsToLower X.caseTable (s2.take 5)) :
    locateSpec X fs s1 = locateSpec X fs s2 := by
  unfold locateSpec
  congr 2
  funext e
  exact matchesEntry_take X.caseTable s1 s2 e h

theorem filter_snap_caseEq (X : Externals Config Opts Tm) (s : GoString) (es1 es2 : List Node)
    (h : List.Forall₂ nodeCaseEq es1 es2) :
    (es1.filter fun n => matchesEntry X.caseTable s ⟨n.name, n.isDir⟩).filterMap (snapNode X)
      = (es2.filter fun n => matchesEntry X.caseTable s ⟨n.name, n.isDir⟩).filterMap
          (snapNode X) := by
  induction h with
  | nil => rfl
  | cons hab htail ih =>
    rename_i a b l1 l2
    obtain ⟨hname, hdir, _, hopt⟩ := hab
    have hm : matchesEntry X.caseTable s ⟨a.name, a.isDir⟩
        = matchesEntry X.caseTable s ⟨b.name, b.isDir⟩ := by
      unfold matchesEntry
      simp only [hdir, stringsToLower_caseEqual X.caseTable a.name b.name hname]
    have hs : snapNode X a = snapNode X b := by
      unfold snapNode
      rw [hdir, hopt]
    simp only [List.filter_cons, hm]
    split
    · simp only [List.filterMap_cons, hs, ih]
    · exact ih

/-- The result of `SearchHash` on two states that differ only in the letter
case of the names of the stored directories, the two listings in any order:
the same position and error, and the same snapshots up to their order. -/
theorem SearchHash_sameEntries (X : Externals Config Opts Tm) (s : GoString)
    (h6 : 6 ≤ s.length) (fs1 fs2 : FS) (hsame : SameEntriesUpToNameCase fs1 fs2)
    (hu1 : UniqueNames fs1) (hu2 : UniqueNames fs2) :
    (SearchHash X fs1 s).1.Perm (SearchHash X fs2 s).1 ∧
      (SearchHash X fs1 s).2 = (SearchHash X fs2 s).2 := by
  by_cases hd : Decodes s
  · obtain ⟨_, hroot⟩ := hsame
    rcases hr1 : fs1.root with c1 | ⟨l1, w1, es1⟩ <;>
      rcases hr2 : fs2.root with c2 | ⟨l2, w2, es2⟩ <;>
      rw [hr1, hr2] at hroot <;> simp only at hroot
    · have hl1 : ¬ Listable fs1 := by simp [Listable, osReadDir, hr1]
      have hl2 : ¬ Listable fs2 := by simp [Listable, osReadDir, hr2]
      rw [SearchHash_unlistable X fs1 s hd hl1, SearchHash_unlistable X fs2 s hd hl2]
      simp [osReadDir, hr1, hr2]
    · obtain ⟨hl, _, es, hperm, hes⟩ := hroot
      subst hl
      cases l1 with
      | false =>
        have hl1 : ¬ Listable fs1 := by simp [Listable, osReadDir, hr1, HISTORYDIR]
        have hl2 : ¬ Listable fs2 := by simp [Listable, osReadDir, hr2, HISTORYDIR]
        rw [SearchHash_unlistable X fs1 s hd hl1, SearchHash_unlistable X fs2 s hd hl2]
        simp [osReadDir, hr1, hr2, HISTORYDIR]
      | true =>
        have hl1 : Listable fs1 := by simp [Listable, osReadDir, hr1, HISTORYDIR]
        have hl2 : Listable fs2 := by simp [Listable, osReadDir, hr2, HISTORYDIR]
        have hn1 : (es1.map fun n => n.name).Nodup := by
          simpa [UniqueNames, FS.entries, hr1] using hu1
        have hn2 : (es2.map fun n => n.name).Nodup := by
          simpa [UniqueNames, FS.entries, hr2] using hu2
        rw [SearchHash_listed X fs1 s hd hl1, SearchHash_listed X fs2 s hd hl2,
          locateSpec_present X fs1 w1 es1 hr1 hn1, locateSpec_present X fs2 w2 es2 hr2 hn2,
          ← filter_snap_caseEq X s es es2 hes]
        exact ⟨((hperm.filter _).filterMap _).symm, rfl⟩
  · have hq : (ParseInt (s.drop 5) 16 32).2 ≠ none := fun hq => hd ⟨h6, hq⟩
    rw [SearchHash_badPosition X fs1 s h6 hq, SearchHash_badPosition X fs2 s h6 hq]
    exact ⟨List.Perm.refl _, rfl⟩

/-- The stores `pairStore` and `mixedStore` differ only in the letter case of
the name of one directory. -/
theorem pairStore_mixedStore : SameEntriesUpToNameCase pairStore mixedStore :=
  ⟨rfl, rfl, rfl, _, List.Perm.swap _ _ [], by decide⟩

/-- C8, as stated, fails in its second half: the stores `pairStore` and
`mixedStore`, both listed in the order of the names as `os.ReadDir` does,
differ only in the letter case of the name of one directory, and `SearchHash`
returns the two snapshots in one order on the first and in the other order on
the second. -/
theorem C8_counterexample :
    SortedByName pairStore ∧ SortedByName mixedStore ∧
      UniqueNames pairStore ∧ UniqueNames mixedStore ∧
      SameEntriesUpToNameCase pairStore mixedStore ∧
      SearchHash sampleX pairStore (str "2e9920")
        = ([⟨sampleConf, 1700000099⟩, ⟨sampleConf, 1700001357⟩], 0, none) ∧
      SearchHash sampleX mixedStore (str "2e9920")
        = ([⟨sampleConf, 1700001357⟩, ⟨sampleConf, 1700000099⟩], 0, none) ∧
      SearchHash sampleX pairStore (str "2e9920")
        ≠ SearchHash sampleX mixedStore (str "2e9920") := by
  refine ⟨by decide, by decide, by decide, by decide, pairStore_mixedStore, by decide,
    by decide, by decide⟩

/-- C8, amended: prefix matching is case-insensitive. For two identifiers of
six bytes or more whose first five bytes are equal up to letter case and whose
remainders are identical, `SearchHash` returns the same sequence, position and
error on every file system state. For one identifier and two states that
differ only in the letter case of the names of the stored directories (names
being unique in each), it returns the same sequence, position and error when
the directories are listed in the same order, and in any case the same
position and error and the same snapshots up to the order of the sequence. -/
theorem C8_prefix_matching_case_insensitive (X : Externals Config Opts Tm)
    (s1 s2 : GoString) (h1 : 6 ≤ s1.length) (h2 : 6 ≤ s2.length)
    (hp : CaseEqual (s1.take 5) (s2.take 5)) (hr : s1.drop 5 = s2.drop 5) :
    (∀ fs : FS, SearchHash X fs s1 = SearchHash X fs s2) ∧
    (∀ fs1 fs2 : FS, SameUpToNameCase fs1 fs2 → UniqueNames fs1 → UniqueNames fs2 →
      SearchHash X fs1 s1 = SearchHash X fs2 s1) ∧
    (∀ fs1 fs2 : FS, SameEntriesUpToNameCase fs1 fs2 → UniqueNames fs1 → UniqueNames fs2 →
      (SearchHash X fs1 s1).1.Perm (SearchHash X fs2 s1).1 ∧
        (SearchHash X fs1 s1).2 = (SearchHash X fs2 s1).2) := by
  have hlow := stringsToLower_caseEqual X.caseTable _ _ hp
  refine ⟨?_, ?_, fun fs1 fs2 hsame hu1 hu2 =>
    SearchHash_sameEntries X s1 h1 fs1 fs2 hsame hu1 hu2⟩
  · intro fs
    by_cases hd : Decodes s1
    · have hd2 : Decodes s2 := ⟨h2, by rw [← hr]; exact hd.2⟩
      by_cases hl : Listable fs
      · rw [SearchHash_listed X fs s1 hd hl, SearchHash_listed X fs s2 hd2 hl, hr,
          locateSpec_take X fs s1 s2 hlow]
      · rw [SearchHash_unlistable X fs s1 hd hl, SearchHash_unlistable X fs s2 hd2 hl]
    · have hq : (ParseInt (s1.drop 5) 16 32).2 ≠ none := fun hq => hd ⟨h1, hq⟩
      rw [SearchHash_badPosition X fs s1 h1 hq, SearchHash_badPosition X fs s2 h2 (hr ▸ hq)]
  · intro fs1 fs2 hsame hu1 hu2
    by_cases hd : Decodes s1
    · obtain ⟨_, hroot⟩ := hsame
      rcases hr1 : fs1.root with c1 | ⟨l1, w1, es1⟩ <;>
        rcases hr2 : fs2.root with c2 | ⟨l2, w2, es2⟩ <;>
        rw [hr1, hr2] at hroot <;> simp only at hroot
      · have hl1 : ¬ Listable fs1 := by simp [Listable, osReadDir, hr1]
        have hl2 : ¬ Listable fs2 := by simp [Listable, osReadDir, hr2]
        rw [SearchHash_unlistable X fs1 s1 hd hl1, SearchHash_unlistable X fs2 s1 hd hl2]
        simp [osReadDir, hr1, hr2]
      · obtain ⟨hl, _, hes⟩ := hroot
        subst hl
        cases l1 with
        | false =>
          have hl1 : ¬ Listable fs1 := by simp [Listable, osReadDir, hr1, HISTORYDIR]
          have hl2 : ¬ Listable fs2 := by simp [Listable, osReadDir, hr2, HISTORYDIR]
          rw [SearchHash_unlistable X fs1 s1 hd hl1, SearchHash_unlistable X fs2 s1 hd hl2]
          simp [osReadDir, hr1, hr2, HISTORYDIR]
        | true =>
          have hl1 : Listable fs1 := by simp [Listable, osReadDir, hr1, HISTORYDIR]
          have hl2 : Listable fs2 := by simp [Listable, osReadDir, hr2, HISTORYDIR]
          have hn1 : (es1.map fun n => n.name).Nodup := by
            simpa [UniqueNames, FS.entries, hr1] using hu1
          have hn2 : (es2.map fun n => n.name).Nodup := by
            simpa [UniqueNames, FS.entries, hr2] using hu2
          rw [SearchHash_listed X fs1 s1 hd hl1, SearchHash_listed X fs2 s1 hd hl2,
            locateSpec_present X fs1 w1 es1 hr1 hn1, locateSpec_present X fs2 w2 es2 hr2 hn2,
            filter_snap_caseEq X s1 es1 es2 hes]
    · by_cases h6 : s1.length < 6
      · omega
      · have hq : (ParseInt (s1.drop 5) 16 32).2 ≠ none := fun hq => hd ⟨h1, hq⟩
        rw [SearchHash_badPosition X fs1 s1 h1 hq, SearchHash_badPosition X fs2 s1 h1 hq]


/-- Witness of C8, amended: the identifiers "2E9920" and "2e9920" give the same
result; so do a store and the same store with a directory name in upper case
and the listing in the same order; and the stores `pairStore` and `mixedStore`
give the same two snapshots, position and error. -/
theorem C8_prefix_matching_case_insensitive_witness :
    SearchHash sampleX corruptStore (str "2E9920")
        = SearchHash sampleX corruptStore (str "2e9920") ∧
      SearchHash sampleX corruptStore (str "2E9920")
        = SearchHash sampleX upperStore (str "2E9920") ∧
      SearchHash sampleX upperStore (str "2E9920") = ([⟨sampleConf, 1700000099⟩], 0, none) ∧
      ((SearchHash sampleX pairStore (str "2E9920")).1.Perm
          (SearchHash sampleX mixedStore (str "2E9920")).1 ∧
        (SearchHash sampleX pairStore (str "2E9920")).2
          = (SearchHash sampleX mixedStore (str "2E9920")).2) ∧
      (SearchHash sampleX pairStore (str "2E9920")).1.length = 2 :=
  have h := C8_prefix_matching_case_insensitive sampleX (str "2E9920") (str "2e9920")
    (by decide) (by decide) (by decide) (by decide)
  ⟨h.1 corruptStore, h.2.1 corruptStore upperStore (by decide) (by decide) (by decide),
    by decide, h.2.2 pairStore mixedStore pairStore_mixedStore (by decide) (by decide),
    by decide⟩

/-! ## Recording (C9, C10, C1) -/

theorem replaceNode_idem (m : Node) (es : List Node) :
    replaceNode m (replaceNode m es) = replaceNode m es := by
  induction es with
  | nil => rfl
  | cons x xs ih =>
    simp only [replaceNode]
    by_cases hx : (x.name == m.name) = true
    · simp [hx, replaceNode]
    · simp [hx, replaceNode, ih]

theorem lookupNode_replaceNode (d : GoString) (m n : Node) (es : List Node)
    (h : lookupNode d es = some n) (hm : m.name = d) :
    lookupNode d (replaceNode m es) = some m := by
  induction es with
  | nil => simp [lookupNode] at h
  | cons x xs ih =>
    unfold lookupNode at h ih ⊢
    simp only [replaceNode]
    rw [List.find?_cons] at h
    by_cases hx : (x.name == d) = true
    · have hxd : x.name = d := by simpa using hx
      simp [hxd, hm]
    · have hx' : (x.name == d) = false := by simpa using hx
      have hx2 : (x.name == m.name) = false := by rw [hm]; exact hx'
      rw [hx'] at h
      simp only [hx2, Bool.false_eq_true, if_false, List.find?_cons, hx']
      exact ih h

theorem mem_replaceNode (m x : Node) (es : List Node) (h : x ∈ replaceNode m es) :
    x = m ∨ x ∈ es := by
  induction es with
  | nil => simp [replaceNode] at h
  | cons y ys ih =>
    simp only [replaceNode] at h
    split at h
    · rcases List.mem_cons.mp h with h | h
      · exact Or.inl h
      · exact Or.inr (List.mem_cons_of_mem _ h)
    · rcases List.mem_cons.mp h with h | h
      · exact Or.inr (h ▸ List.mem_cons_self _ _)
      · rcases ih h with h | h
        · exact Or.inl h
        · exact Or.inr (List.mem_cons_of_mem _ h)

theorem mem_insertNode (m x : Node) (es : List Node) (h : x ∈ insertNode m es) :
    x = m ∨ x ∈ es := by
  induction es with
  | nil => simpa [insertNode] using h
  | cons y ys ih =>
    simp only [insertNode] at h
    split at h
    · rcases List.mem_cons.mp h with h | h
      · exact Or.inl h
      · exact Or.inr h
    · rcases List.mem_cons.mp h with h | h
      · exact Or.inr (h ▸ List.mem_cons_self _ _)
      · rcases ih h with h | h
        · exact Or.inl h
        · exact Or.inr (List.mem_cons_of_mem _ h)

theorem lookupNode_insertNode (m : Node) (es : List Node)
    (h : lookupNode m.name es = none) : lookupNode m.name (insertNode m es) = some m := by
  induction es with
  | nil => simp [insertNode, lookupNode]
  | cons y ys ih =>
    unfold lookupNode at h ih ⊢
    rw [List.find?_cons] at h
    by_cases hy : (y.name == m.name) = true
    · simp [hy] at h
    · have hy' : (y.name == m.name) = false := by simpa using hy
      rw [hy'] at h
      simp only [insertNode]
      split
      · simp
      · simp only [List.find?_cons, hy']
        exact ih h

theorem writeBytes_ok (limit : Option Nat) (name : Path) (data : List Nat)
    (h : (writeBytes limit name data).2 = none) : (writeBytes limit name data).1 = data := by
  unfold writeBytes at h ⊢
  cases limit with
  | none => rfl
  | some k =>
    simp only at h ⊢
    split at h
    · rename_i hk; simp [hk]
    · simp at h

theorem osMkdirAll_fail (fs : FS) (d : GoString) (h : (osMkdirAll fs [d]).2 ≠ none) :
    (osMkdirAll fs [d]).1 = fs := by
  unfold osMkdirAll at h ⊢
  rcases hr : fs.root with c | ⟨l, w, es⟩
  · rw [hr] at h
    cases c with
    | false => simp
    | true => simp at h
  · rw [hr] at h
    simp only at h ⊢
    cases hl : lookupNode d es with
    | some n =>
      rw [hl] at h
      simp only at h ⊢
      by_cases hd : n.isDir = true
      · simp [hd] at h
      · simp [hd]
    | none =>
      rw [hl] at h
      simp only at h ⊢
      cases w with
      | false => simp
      | true => simp at h

/-- What `os.MkdirAll` leaves behind when it succeeds: the directory is
there, and every entry is an old one or the new, empty directory. -/
theorem osMkdirAll_ok (fs : FS) (d : GoString) (h : (osMkdirAll fs [d]).2 = none) :
    ∃ l w es n, (osMkdirAll fs [d]).1 = ⟨.present l w es, fs.fsizeLimit⟩ ∧
      lookupNode d es = some n ∧ n.isDir = true ∧
      ∀ x ∈ es, x ∈ fs.entries ∨ x = ⟨d, true, true, none⟩ := by
  rcases hr : fs.root with c | ⟨l, w, es⟩
  · cases c with
    | false =>
      have hres : osMkdirAll fs [d] = (fs, some (.pathError "mkdir" [d] .EACCES)) := by
        unfold osMkdirAll; simp [hr]
      rw [hres] at h; simp at h
    | true =>
      have hres : osMkdirAll fs [d]
          = (⟨.present true true [⟨d, true, true, none⟩], fs.fsizeLimit⟩, none) := by
        unfold osMkdirAll; simp [hr]
      rw [hres]
      exact ⟨true, true, _, ⟨d, true, true, none⟩, rfl, by simp [lookupNode], rfl, by simp⟩
  · cases hl : lookupNode d es with
    | some n =>
      by_cases hd : n.isDir = true
      · have hres : osMkdirAll fs [d] = (fs, none) := by
          unfold osMkdirAll; simp [hr, hl, hd]
        rw [hres]
        refine ⟨l, w, es, n, ?_, hl, hd, fun x hx => Or.inl ?_⟩
        · cases fs; simp_all
        · simp [FS.entries, hr, hx]
      · have hres : osMkdirAll fs [d] = (fs, some (.pathError "mkdir" [d] .ENOTDIR)) := by
          unfold osMkdirAll; simp [hr, hl, hd]
        rw [hres] at h; simp at h
    | none =>
      cases w with
      | false =>
        have hres : osMkdirAll fs [d] = (fs, some (.pathError "mkdir" [d] .EACCES)) := by
          unfold osMkdirAll; simp [hr, hl]
        rw [hres] at h; simp at h
      | true =>
        have hres : osMkdirAll fs [d]
            = (⟨.present l true (insertNode ⟨d, true, true, none⟩ es), fs.fsizeLimit⟩,
                none) := by
          unfold osMkdirAll; simp [hr, hl]
        rw [hres]
        refine ⟨l, true, _, ⟨d, true, true, none⟩, rfl,
          lookupNode_insertNode ⟨d, true, true, none⟩ es hl, rfl, fun x hx => ?_⟩
        rcases mem_insertNode _ _ _ hx with h | h
        · exact Or.inr h
        · left; simp [FS.entries, hr, h]

theorem osMkdirAll_existing (fs : FS) (d : GoString) (l w : Bool) (es : List Node) (n : Node)
    (hr : fs.root = .present l w es) (hl : lookupNode d es = some n) (hd : n.isDir = true) :
    osMkdirAll fs [d] = (fs, none) := by
  unfold osMkdirAll
  simp [hr, hl, hd]

/-- What `os.WriteFile` leaves behind when the directory is there: either
nothing changes and the call fails, or the `options` file of the directory
holds what the write stored, every other entry being as before. -/
theorem osWriteFile_result (fs : FS) (d : GoString) (data : List Nat) (l w : Bool)
    (es : List Node) (n : Node) (hr : fs.root = .present l w es)
    (hl : lookupNode d es = some n) (hd : n.isDir = true) :
    ((osWriteFile fs [d, str "options"] data).1 = fs ∧
        (osWriteFile fs [d, str "options"] data).2 ≠ none) ∨
    ∃ f : File,
      osWriteFile fs [d, str "options"] data
          = (⟨.present l w (replaceNode { n with options := some f } es), fs.fsizeLimit⟩,
              (writeBytes fs.fsizeLimit [d, str "options"] data).2) ∧
        f.data = (writeBytes fs.fsizeLimit [d, str "options"] data).1 ∧
        f.writable = true ∧
        (f.readable = true ∨ ∃ g, n.options = some g ∧ g.readable = f.readable) := by
  cases ho : n.options with
  | none =>
    by_cases hw : n.writable = true
    · right
      refine ⟨⟨(writeBytes fs.fsizeLimit [d, str "options"] data).1, true, true⟩, ?_, rfl,
        rfl, Or.inl rfl⟩
      unfold osWriteFile; simp [hr, hl, hd, ho, hw]
    · left
      have hres : osWriteFile fs [d, str "options"] data
          = (fs, some (.pathError "open" [d, str "options"] .EACCES)) := by
        unfold osWriteFile; simp [hr, hl, hd, ho, hw]
      rw [hres]; simp
  | some g =>
    by_cases hw : g.writable = true
    · right
      refine ⟨{ g with data := (writeBytes fs.fsizeLimit [d, str "options"] data).1 }, ?_, rfl,
        hw, Or.inr ⟨g, rfl, rfl⟩⟩
      unfold osWriteFile; simp [hr, hl, hd, ho, hw]
    · left
      have hres : osWriteFile fs [d, str "options"] data
          = (fs, some (.pathError "open" [d, str "options"] .EACCES)) := by
        unfold osWriteFile; simp [hr, hl, hd, ho, hw]
      rw [hres]; simp

theorem osWriteFile_idem (fs : FS) (d : GoString) (data : List Nat) :
    osWriteFile (osWriteFile fs [d, str "options"] data).1 [d, str "options"] data
      = osWriteFile fs [d, str "options"] data := by
  rcases hr : fs.root with c | ⟨l, w, es⟩
  · have h1 : osWriteFile fs [d, str "options"] data
        = (fs, some (.pathError "open" [d, str "options"] .ENOENT)) := by
      unfold osWriteFile; simp [hr]
    rw [h1]; exact h1
  · cases hl : lookupNode d es with
    | none =>
      have h1 : osWriteFile fs [d, str "options"] data
          = (fs, some (.pathError "open" [d, str "options"] .ENOENT)) := by
        unfold osWriteFile; simp [hr, hl]
      rw [h1]; exact h1
    | some n =>
      have hname : n.name = d := (lookupNode_some d es n hl).1
      by_cases hd : n.isDir = true
      · rcases osWriteFile_result fs d data l w es n hr hl hd with ⟨h1, _⟩ | ⟨f, h1, hdata, hwr, _⟩
        · rw [h1]
        · have hl2 := lookupNode_replaceNode d { n with options := some f } n es hl hname
          obtain ⟨fd, frd, fwr⟩ := f
          simp only at hdata hwr
          subst hwr
          rw [h1]
          unfold osWriteFile
          simp only [hd] at hl2
          simp only [hl2, hd, not_true_eq_false, if_false, ne_eq, if_true]
          rw [← hdata, replaceNode_idem]
      · have h1 : osWriteFile fs [d, str "options"] data
            = (fs, some (.pathError "open" [d, str "options"] .ENOTDIR)) := by
          unfold osWriteFile; simp [hr, hl, hd]
        rw [h1]; exact h1

theorem WriteHistoryEntry_marshalError (X : Externals Config Opts Tm) (now : Tm) (fs : FS)
    (conf : Config)
    (h : (X.jsonMarshal { ConfigOptions := X.ToOptions conf, Time := now }).2 ≠ none) :
    WriteHistoryEntry X now fs conf
      = ((str "", (X.jsonMarshal { ConfigOptions := X.ToOptions conf, Time := now }).2), fs) := by
  rw [WriteHistoryEntry]
  rcases hm : X.jsonMarshal { ConfigOptions := X.ToOptions conf, Time := now } with ⟨j, e⟩
  rw [hm] at h
  cases e with
  | none => exact absurd rfl h
  | some e => simp

theorem WriteHistoryEntry_mkdirError (X : Externals Config Opts Tm) (now : Tm) (fs : FS)
    (conf : Config)
    (h1 : (X.jsonMarshal { ConfigOptions := X.ToOptions conf, Time := now }).2 = none)
    (h2 : (createConfigDir fs [recordHash X now conf]).2 ≠ none) :
    WriteHistoryEntry X now fs conf
      = ((str "", (createConfigDir fs [recordHash X now conf]).2), fs) := by
  have hfs : (createConfigDir fs [recordHash X now conf]).1 = fs := osMkdirAll_fail _ _ h2
  rw [WriteHistoryEntry]
  unfold recordHash recordBytes at h2 hfs ⊢
  rcases hm : X.jsonMarshal { ConfigOptions := X.ToOptions conf, Time := now } with ⟨j, e⟩
  rw [hm] at h1 h2 hfs
  simp only at h1 h2 hfs
  subst h1
  simp only [Option.isSome_none, Bool.false_eq_true, if_false, filepathJoin, HISTORYDIR,
    List.nil_append]
  rcases hc : createConfigDir fs [calculateHistoryHash j] with ⟨fs1, e1⟩
  rw [hc] at h2 hfs
  simp only at h2 hfs
  subst hfs
  cases e1 with
  | none => exact absurd rfl h2
  | some e => simp

theorem WriteHistoryEntry_written (X : Externals Config Opts Tm) (now : Tm) (fs : FS)
    (conf : Config)
    (h1 : (X.jsonMarshal { ConfigOptions := X.ToOptions conf, Time := now }).2 = none)
    (h2 : (createConfigDir fs [recordHash X now conf]).2 = none) :
    WriteHistoryEntry X now fs conf
      = ((recordHash X now conf,
          (osWriteFile (createConfigDir fs [recordHash X now conf]).1
            [recordHash X now conf, str "options"] (recordBytes X now conf)).2),
         (osWriteFile (createConfigDir fs [recordHash X now conf]).1
            [recordHash X now conf, str "options"] (recordBytes X now conf)).1) := by
  rw [WriteHistoryEntry]
  unfold recordHash recordBytes at h2 ⊢
  rcases hm : X.jsonMarshal { ConfigOptions := X.ToOptions conf, Time := now } with ⟨j, e⟩
  rw [hm] at h1 h2
  simp only at h1 h2
  subst h1
  simp only [Option.isSome_none, Bool.false_eq_true, if_false, filepathJoin, HISTORYDIR,
    List.nil_append]
  rcases hc : createConfigDir fs [calculateHistoryHash j] with ⟨fs1, e1⟩
  rw [hc] at h2
  simp only at h2
  subst h2
  simp

/-- After a write to the directory `d` of a state in which `d` is a directory,
`d` still is a directory of the history directory. -/
theorem osWriteFile_keeps_dir (fs : FS) (d : GoString) (data : List Nat) (l w : Bool)
    (es : List Node) (n : Node) (hr : fs.root = .present l w es)
    (hl : lookupNode d es = some n) (hd : n.isDir = true) :
    ∃ es2 n2, (osWriteFile fs [d, str "options"] data).1.root = .present l w es2 ∧
      lookupNode d es2 = some n2 ∧ n2.isDir = true := by
  rcases osWriteFile_result fs d data l w es n hr hl hd with ⟨h1, _⟩ | ⟨f, h1, _, _, _⟩
  · rw [h1]; exact ⟨es, n, hr, hl, hd⟩
  · rw [h1]
    exact ⟨_, _, rfl,
      lookupNode_replaceNode d { n with options := some f } n es hl (lookupNode_some d es n hl).1,
      hd⟩

/-- C9: recording is deterministic and idempotent. Running
`WriteHistoryEntry` again on the same configuration and time, in the state the
first run left, returns the same hash and error as the first run and leaves
that state unchanged (so no second location appears); and after a successful
run the directory that now exists is not an error for `createConfigDir`,
which leaves the state as it is. -/
theorem C9_recording_idempotent (X : Externals Config Opts Tm) (now : Tm) (fs : FS)
    (conf : Config) :
    WriteHistoryEntry X now (WriteHistoryEntry X now fs conf).2 conf
        = WriteHistoryEntry X now fs conf ∧
      ((WriteHistoryEntry X now fs conf).1.2 = none →
        createConfigDir (WriteHistoryEntry X now fs conf).2 [recordHash X now conf]
          = ((WriteHistoryEntry X now fs conf).2, none)) := by
  by_cases h1 : (X.jsonMarshal { ConfigOptions := X.ToOptions conf, Time := now }).2 = none
  · by_cases h2 : (createConfigDir fs [recordHash X now conf]).2 = none
    · obtain ⟨l, w, es, n, hfs1, hl, hd, _⟩ := osMkdirAll_ok fs _ h2
      have hw := WriteHistoryEntry_written X now fs conf h1 h2
      have hr1 : (createConfigDir fs [recordHash X now conf]).1.root = .present l w es := by
        unfold createConfigDir; rw [hfs1]
      obtain ⟨es2, n2, hr2, hl2, hd2⟩ := osWriteFile_keeps_dir
        (createConfigDir fs [recordHash X now conf]).1 (recordHash X now conf)
        (recordBytes X now conf) l w es n hr1 hl hd
      have hmk : createConfigDir
          (osWriteFile (createConfigDir fs [recordHash X now conf]).1
            [recordHash X now conf, str "options"] (recordBytes X now conf)).1
          [recordHash X now conf]
          = ((osWriteFile (createConfigDir fs [recordHash X now conf]).1
            [recordHash X now conf, str "options"] (recordBytes X now conf)).1, none) :=
        osMkdirAll_existing _ _ l w es2 n2 hr2 hl2 hd2
      rw [hw]
      simp only
      refine ⟨?_, fun _ => hmk⟩
      rw [WriteHistoryEntry_written X now _ conf h1 (by rw [hmk])]
      rw [hmk]
      simp only
      rw [osWriteFile_idem]
    · have hw := WriteHistoryEntry_mkdirError X now fs conf h1 h2
      rw [hw]
      simp only
      exact ⟨hw, fun h => absurd h h2⟩
  · have hw := WriteHistoryEntry_marshalError X now fs conf h1
    rw [hw]
    simp only
    exact ⟨hw, fun h => absurd h h1⟩

set_option maxRecDepth 100000 in
/-- Witness of C9: the sample configuration is recorded in an empty store, and
a second run returns the same hash and leaves the same state. -/
theorem C9_recording_idempotent_witness :
    (WriteHistoryEntry sampleX 1700000099 emptyStore sampleConf).1 = (hashA, none) ∧
      WriteHistoryEntry sampleX 1700000099
          (WriteHistoryEntry sampleX 1700000099 emptyStore sampleConf).2 sampleConf
        = WriteHistoryEntry sampleX 1700000099 emptyStore sampleConf ∧
      createConfigDir (WriteHistoryEntry sampleX 1700000099 emptyStore sampleConf).2
          [recordHash sampleX 1700000099 sampleConf]
        = ((WriteHistoryEntry sampleX 1700000099 emptyStore sampleConf).2, none) :=
  have h := C9_recording_idempotent sampleX 1700000099 emptyStore sampleConf
  ⟨by decide, h.1, h.2 (by decide)⟩

/-! ## The form of the hash -/

theorem hexDigit_lowerHex (n : Nat) (h : n < 16) : isLowerHex (hexDigit n) = true := by
  interval_cases n <;> decide

theorem sprintfHex_length (bs : List Nat) : (sprintfHex bs).length = 2 * bs.length := by
  unfold sprintfHex
  induction bs with
  | nil => rfl
  | cons b bs ih =>
    simp only [List.flatMap_cons, List.length_append, List.length_cons, List.length_nil, ih]
    omega

theorem sprintfHex_lowerHex (bs : List Nat) : (sprintfHex bs).all isLowerHex = true := by
  unfold sprintfHex
  induction bs with
  | nil => rfl
  | cons b bs ih =>
    simp only [List.flatMap_cons, List.all_append, List.all_cons, List.all_nil, Bool.and_true,
      ih, hexDigit_lowerHex (b / 16 % 16) (Nat.mod_lt _ (by omega)),
      hexDigit_lowerHex (b % 16) (Nat.mod_lt _ (by omega)), Bool.and_self]

theorem sha256Sum256_length (m : List Nat) : (sha256Sum256 m).length = 32 := by
  simp [sha256Sum256, beBytes]

theorem calculateHistoryHash_length (options : List Nat) :
    (calculateHistoryHash options).length = 64 := by
  unfold calculateHistoryHash
  rw [sprintfHex_length, sha256Sum256_length]

theorem calculateHistoryHash_lowerHex (options : List Nat) :
    (calculateHistoryHash options).all isLowerHex = true :=
  sprintfHex_lowerHex _

theorem stringsToLower_lowerHex (tbl : Nat → Nat) (s : GoString)
    (h : s.all isLowerHex = true) : stringsToLower tbl s = s := by
  have hall : ∀ c ∈ s, (0x30 ≤ c ∧ c ≤ 0x39) ∨ (0x61 ≤ c ∧ c ≤ 0x66) := by
    intro c hc
    have := List.all_eq_true.mp h c hc
    unfold isLowerHex at this
    simp only [Bool.or_eq_true, Bool.and_eq_true, decide_eq_true_eq] at this
    exact this
  have hascii : s.all (fun c => decide (c < 0x80)) = true := by
    rw [List.all_eq_true]
    intro c hc
    have := hall c hc
    simp only [decide_eq_true_eq]
    omega
  unfold stringsToLower
  rw [if_pos hascii]
  conv_rhs => rw [← List.map_id s]
  apply List.map_congr_left
  intro c hc
  have := hall c hc
  unfold lowerByte
  rw [if_neg (by omega)]
  rfl

/-! ## The invariant and the round trip (C10, C1) -/

theorem osReadFile_lookup (fs : FS) (d : GoString) (l w : Bool) (es : List Node) (n : Node)
    (f : File) (hr : fs.root = .present l w es) (hl : lookupNode d es = some n)
    (hd : n.isDir = true) (ho : n.options = some f) :
    osReadFile fs [d, str "options"]
      = if f.readable then (f.data, none)
        else ([], some (.pathError "open" [d, str "options"] .EACCES)) := by
  unfold osReadFile
  simp [hr, hl, hd, ho]

/-- What a run of `WriteHistoryEntry` without error leaves behind: the hash
returned is the hash of the serialized bytes, and the history directory is
present with a directory of that name whose `options` file holds those bytes,
every other entry being an old one or a new, empty directory. -/
theorem WriteHistoryEntry_success (X : Externals Config Opts Tm) (now : Tm) (fs : FS)
    (conf : Config) (hok : (WriteHistoryEntry X now fs conf).1.2 = none) :
    (WriteHistoryEntry X now fs conf).1.1 = recordHash X now conf ∧
    ∃ l w es n f, (WriteHistoryEntry X now fs conf).2 = ⟨.present l w es, fs.fsizeLimit⟩ ∧
      lookupNode (recordHash X now conf) es = some n ∧ n.isDir = true ∧
      n.options = some f ∧ f.data = recordBytes X now conf ∧
      ∀ x ∈ es, x = n ∨ x ∈ fs.entries ∨ x = ⟨recordHash X now conf, true, true, none⟩ := by
  by_cases h1 : (X.jsonMarshal { ConfigOptions := X.ToOptions conf, Time := now }).2 = none
  · by_cases h2 : (createConfigDir fs [recordHash X now conf]).2 = none
    · obtain ⟨l, w, es, n, hfs1, hl, hd, hmem⟩ := osMkdirAll_ok fs _ h2
      have hw := WriteHistoryEntry_written X now fs conf h1 h2
      rw [hw] at hok ⊢
      simp only at hok
      have hfs1' : (createConfigDir fs [recordHash X now conf]).1
          = ⟨.present l w es, fs.fsizeLimit⟩ := hfs1
      rw [hfs1'] at hok ⊢
      rcases osWriteFile_result ⟨.present l w es, fs.fsizeLimit⟩ (recordHash X now conf)
        (recordBytes X now conf) l w es n rfl hl hd with ⟨_, he⟩ | ⟨f, hres, hdata, _, _⟩
      · exact absurd hok he
      · rw [hres] at hok ⊢
        simp only at hok
        refine ⟨rfl, l, w, _, { n with options := some f }, f, rfl,
          lookupNode_replaceNode _ _ n es hl (lookupNode_some _ es n hl).1, hd, rfl,
          hdata.trans (writeBytes_ok _ _ _ hok), fun x hx => ?_⟩
        rcases mem_replaceNode _ _ _ hx with h | h
        · exact Or.inl h
        · exact Or.inr (hmem x h)
    · rw [WriteHistoryEntry_mkdirError X now fs conf h1 h2] at hok
      exact absurd hok h2
  · rw [WriteHistoryEntry_marshalError X now fs conf h1] at hok
    exact absurd hok h1

/-- What any run of `WriteHistoryEntry` leaves behind: every entry is an old
one, or a new empty directory, or carries the name of the computed hash. -/
theorem WriteHistoryEntry_entries (X : Externals Config Opts Tm) (now : Tm) (fs : FS)
    (conf : Config) (x : Node) (hx : x ∈ (WriteHistoryEntry X now fs conf).2.entries) :
    x ∈ fs.entries ∨ x = ⟨recordHash X now conf, true, true, none⟩
      ∨ x.name = recordHash X now conf := by
  by_cases h1 : (X.jsonMarshal { ConfigOptions := X.ToOptions conf, Time := now }).2 = none
  · by_cases h2 : (createConfigDir fs [recordHash X now conf]).2 = none
    · obtain ⟨l, w, es, n, hfs1, hl, hd, hmem⟩ := osMkdirAll_ok fs _ h2
      have hw := WriteHistoryEntry_written X now fs conf h1 h2
      rw [hw] at hx
      simp only at hx
      have hfs1' : (createConfigDir fs [recordHash X now conf]).1
          = ⟨.present l w es, fs.fsizeLimit⟩ := hfs1
      rw [hfs1'] at hx
      rcases osWriteFile_result ⟨.present l w es, fs.fsizeLimit⟩ (recordHash X now conf)
        (recordBytes X now conf) l w es n rfl hl hd with ⟨hsame, _⟩ | ⟨f, hres, _, _, _⟩
      · rw [hsame] at hx
        rcases hmem x hx with h | h
        · exact Or.inl h
        · exact Or.inr (Or.inl h)
      · rw [hres] at hx
        rcases mem_replaceNode _ _ _ hx with h | h
        · right; right
          rw [h]
          exact (lookupNode_some _ es n hl).1
        · rcases hmem x h with h | h
          · exact Or.inl h
          · exact Or.inr (Or.inl h)
    · rw [WriteHistoryEntry_mkdirError X now fs conf h1 h2] at hx
      exact Or.inl hx
  · rw [WriteHistoryEntry_marshalError X now fs conf h1] at hx
    exact Or.inl hx

set_option maxRecDepth 100000 in
/-- C10, as stated, fails: from an empty store that respects the invariant, a
run of `WriteHistoryEntry` whose write stops after four bytes returns an error
and leaves a directory named by the hash of the whole snapshot that holds only
the first four bytes. -/
theorem C10_counterexample :
    StoreInv limitedStore ∧
      (WriteHistoryEntry sampleX 1 limitedStore sampleConf).1.2 ≠ none ∧
      ¬ StoreInv (WriteHistoryEntry sampleX 1 limitedStore sampleConf).2 := by
  refine ⟨by decide, by decide, by decide⟩

/-- C10, amended: if every directory under the history directory that holds
an `options` file is named by the hash of the bytes of that file, then the
same holds after every call of `WriteHistoryEntry` that returns no error, and
after a call that returns an error it holds for every directory other than the
one named by the hash the call computed. (`SearchHash` only reads, it has no
state to return.) -/
theorem C10_invariant_preserved (X : Externals Config Opts Tm) (now : Tm) (fs : FS)
    (conf : Config) (hinv : StoreInv fs) :
    ((WriteHistoryEntry X now fs conf).1.2 = none →
      StoreInv (WriteHistoryEntry X now fs conf).2) ∧
    ∀ x ∈ (WriteHistoryEntry X now fs conf).2.entries,
      x.name ≠ recordHash X now conf → nodeInv x := by
  have hnew : nodeInv ⟨recordHash X now conf, true, true, none⟩ := by
    intro _; trivial
  constructor
  · intro hok x hx
    obtain ⟨_, l, w, es, n, f, hfs, hl, hd, ho, hdata, hmem⟩ :=
      WriteHistoryEntry_success X now fs conf hok
    rw [hfs] at hx
    rcases hmem x hx with h | h | h
    · subst h
      intro _
      rw [ho]
      simp only
      rw [hdata, (lookupNode_some _ es x hl).1]
      rfl
    · exact hinv x h
    · rw [h]; exact hnew
  · intro x hx hne
    rcases WriteHistoryEntry_entries X now fs conf x hx with h | h | h
    · exact hinv x h
    · rw [h]; exact hnew
    · exact absurd h hne

set_option maxRecDepth 100000 in
/-- Witness of C10, amended: recording the sample configuration in an empty
store keeps the invariant. -/
theorem C10_invariant_preserved_witness :
    StoreInv emptyStore ∧
      StoreInv (WriteHistoryEntry sampleX 1700000099 emptyStore sampleConf).2 :=
  ⟨by decide,
    (C10_invariant_preserved sampleX 1700000099 emptyStore sampleConf (by decide)).1
      (by decide)⟩

theorem filter_eq_singleton {α : Type} (p : α → Bool) (l : List α) (a : α) (ha : a ∈ l)
    (hp : p a = true) (hlen : (l.filter p).length ≤ 1) : l.filter p = [a] := by
  have hmem : a ∈ l.filter p := List.mem_filter.mpr ⟨ha, hp⟩
  match hf : l.filter p with
  | [] => rw [hf] at hmem; simp at hmem
  | [b] =>
    rw [hf] at hmem
    simp only [List.mem_singleton] at hmem
    rw [hmem]
  | _ :: _ :: _ => rw [hf] at hlen; simp at hlen

set_option maxRecDepth 100000 in
/-- C1, as stated, fails: the sample configuration recorded at two times whose
hashes share their first five digits leaves two locations under that prefix,
and `SearchHash` on the prefix of the second hash returns two snapshots, both
with that configuration. -/
theorem C1_counterexample :
    (WriteHistoryEntry sampleX 1700001357
        (WriteHistoryEntry sampleX 1700000099 emptyStore sampleConf).2 sampleConf).1
        = (hashB, none) ∧
      sampleX.jsonUnmarshal (recordBytes sampleX 1700001357 sampleConf)
        = (⟨sampleConf, 1700001357⟩, none) ∧
      SearchHash sampleX
          (WriteHistoryEntry sampleX 1700001357
            (WriteHistoryEntry sampleX 1700000099 emptyStore sampleConf).2 sampleConf).2
          (hashB.take 5 ++ str "0")
        = ([⟨sampleConf, 1700000099⟩, ⟨sampleConf, 1700001357⟩], 0, none) := by
  refine ⟨by decide, by decide, by decide⟩

/-- C1, amended: for every configuration whose serialized snapshot
deserializes without error to a snapshot with the same configuration, and
every file system state, if `WriteHistoryEntry` succeeds and returns the hash
`h`, and in the resulting state the history directory can be listed, the
`options` file of `h` can be read, and at most one directory matches the
prefix `h[0:5]`, then `SearchHash(h[0:5] + "0")` returns no error, position 0,
and exactly one snapshot, the deserialized one, whose configuration is that
of the call. -/
theorem C1_round_trip (X : Externals Config Opts Tm) (now : Tm) (fs : FS) (conf : Config)
    (hok : (WriteHistoryEntry X now fs conf).1.2 = none)
    (hser : (X.jsonUnmarshal (recordBytes X now conf)).2 = none ∧
      (X.jsonUnmarshal (recordBytes X now conf)).1.ConfigOptions = X.ToOptions conf)
    (hlist : Listable (WriteHistoryEntry X now fs conf).2)
    (hread : (osReadFile (WriteHistoryEntry X now fs conf).2
      [(WriteHistoryEntry X now fs conf).1.1, str "options"]).2 = none)
    (huniq : ((osReadDir (WriteHistoryEntry X now fs conf).2 HISTORYDIR).1.filter
      (matchesEntry X.caseTable
        ((WriteHistoryEntry X now fs conf).1.1.take 5 ++ str "0"))).length ≤ 1) :
    SearchHash X (WriteHistoryEntry X now fs conf).2
        ((WriteHistoryEntry X now fs conf).1.1.take 5 ++ str "0")
      = ([(X.jsonUnmarshal (recordBytes X now conf)).1], 0, none) ∧
    (X.jsonUnmarshal (recordBytes X now conf)).1.ConfigOptions = X.ToOptions conf := by
  refine ⟨?_, hser.2⟩
  obtain ⟨hh, l, w, es, n, f, hfs, hl, hd, ho, hdata, _⟩ :=
    WriteHistoryEntry_success X now fs conf hok
  rw [hh] at hread huniq ⊢
  rw [hfs] at hlist hread huniq ⊢
  have hlen : (recordHash X now conf).length = 64 := calculateHistoryHash_length _
  have hhex : (recordHash X now conf).all isLowerHex = true := calculateHistoryHash_lowerHex _
  generalize recordHash X now conf = h at *
  have htake : (h.take 5).length = 5 := by simp [List.length_take]; omega
  have hdrop : (h.take 5 ++ str "0").drop 5 = str "0" := by
    rw [List.drop_append_of_le_length (by omega)]
    rw [List.drop_of_length_le (by omega)]
    rfl
  have htk : (h.take 5 ++ str "0").take 5 = h.take 5 := by
    rw [List.take_append_of_le_length (by omega)]
    exact List.take_of_length_le (by omega)
  have hdec : Decodes (h.take 5 ++ str "0") := by
    refine ⟨by simp [List.length_append, htake, str, encodeRune], ?_⟩
    rw [hdrop]; decide
  rw [SearchHash_listed X _ _ hdec hlist, hdrop]
  have hpos : (ParseInt (str "0") 16 32).1 = 0 := by decide
  rw [hpos]
  -- the listing
  have hl' : l = true := by
    unfold Listable osReadDir HISTORYDIR at hlist
    simp only at hlist
    by_contra hne
    simp [hne] at hlist
  subst hl'
  have hlisting : (osReadDir ⟨.present true w es, fs.fsizeLimit⟩ HISTORYDIR).1
      = es.map fun n => ⟨n.name, n.isDir⟩ := by
    unfold osReadDir HISTORYDIR; simp
  obtain ⟨hname, hmem⟩ := lookupNode_some h es n hl
  have hmatch : matchesEntry X.caseTable (h.take 5 ++ str "0") ⟨h, true⟩ = true := by
    unfold matchesEntry
    rw [htk, stringsToLower_lowerHex _ h hhex]
    have h5 : (h.take 5).all isLowerHex = true := by
      rw [List.all_eq_true] at hhex ⊢
      exact fun c hc => hhex c (List.mem_of_mem_take hc)
    rw [stringsToLower_lowerHex _ _ h5]
    unfold stringsHasPrefix
    simp [htake, hlen]
  have hmemDE : (⟨h, true⟩ : DirEntry) ∈ es.map fun n => ⟨n.name, n.isDir⟩ :=
    List.mem_map.mpr ⟨n, hmem, by rw [hname, hd]⟩
  unfold locateSpec
  rw [hlisting] at huniq ⊢
  rw [filter_eq_singleton _ _ _ hmemDE hmatch huniq]
  -- the snapshot
  have hrf := osReadFile_lookup ⟨.present true w es, fs.fsizeLimit⟩ h true w es n f rfl hl hd ho
  rw [hrf] at hread
  have hreadable : f.readable = true := by
    by_contra hne
    simp [hne] at hread
  rw [hreadable, if_pos rfl, hdata] at hrf
  simp only [List.filterMap_cons, List.filterMap_nil, snapshotOf, hrf]
  rcases hu : X.jsonUnmarshal (recordBytes X now conf) with ⟨v, e⟩
  rw [hu] at hser
  obtain ⟨he, _⟩ := hser
  simp only at he
  subst he
  rfl

set_option maxRecDepth 100000 in
/-- Witness of C1, amended: the sample configuration recorded in an empty store
is found again under the prefix of its hash. -/
theorem C1_round_trip_witness :
    SearchHash sampleX (WriteHistoryEntry sampleX 1700000099 emptyStore sampleConf).2
        ((WriteHistoryEntry sampleX 1700000099 emptyStore sampleConf).1.1.take 5 ++ str "0")
      = ([(sampleX.jsonUnmarshal (recordBytes sampleX 1700000099 sampleConf)).1], 0, none) ∧
    (sampleX.jsonUnmarshal (recordBytes sampleX 1700000099 sampleConf)).1.ConfigOptions
      = sampleX.ToOptions sampleConf :=
  C1_round_trip sampleX 1700000099 emptyStore sampleConf (by decide) (by decide) (by decide)
    (by decide) (by decide)

/-! ## Failure of recording, the frame of the calls, empty results (C11 to C15, C20) -/

theorem mem_replaceNode_old (d : GoString) (m n : Node) (es : List Node)
    (h : lookupNode d es = some n) (hm : m.name = d) (x : Node) (hx : x ∈ es) :
    x ∈ replaceNode m es ∨ (x = n ∧ m ∈ replaceNode m es) := by
  induction es with
  | nil => simp at hx
  | cons y ys ih =>
    unfold lookupNode at h ih
    rw [List.find?_cons] at h
    simp only [replaceNode]
    by_cases hy : (y.name == d) = true
    · have hyd : y.name = d := by simpa using hy
      rw [hy] at h
      simp only [Option.some.injEq] at h
      subst h
      have hym : (y.name == m.name) = true := by simp [hyd, hm]
      simp only [hym, if_true]
      rcases List.mem_cons.mp hx with hxy | hxy
      · exact Or.inr ⟨hxy, List.mem_cons_self _ _⟩
      · exact Or.inl (List.mem_cons_of_mem _ hxy)
    · have hy' : (y.name == d) = false := by simpa using hy
      rw [hy'] at h
      have hym : (y.name == m.name) = false := by rw [hm]; exact hy'
      simp only [hym, Bool.false_eq_true, if_false]
      rcases List.mem_cons.mp hx with hxy | hxy
      · exact Or.inl (hxy ▸ List.mem_cons_self _ _)
      · rcases ih h hxy with h1 | ⟨h1, h2⟩
        · exact Or.inl (List.mem_cons_of_mem _ h1)
        · exact Or.inr ⟨h1, List.mem_cons_of_mem _ h2⟩

theorem mem_insertNode_old (m x : Node) (es : List Node) (hx : x ∈ es) :
    x ∈ insertNode m es := by
  induction es with
  | nil => simp at hx
  | cons y ys ih =>
    simp only [insertNode]
    split
    · exact List.mem_cons_of_mem _ hx
    · rcases List.mem_cons.mp hx with hxy | hxy
      · exact hxy ▸ List.mem_cons_self _ _
      · exact List.mem_cons_of_mem _ (ih hxy)

/-- A successful `os.MkdirAll` keeps every entry. -/
theorem osMkdirAll_keeps (fs : FS) (d : GoString) (x : Node) (hx : x ∈ fs.entries) :
    x ∈ (osMkdirAll fs [d]).1.entries := by
  rcases hr : fs.root with c | ⟨l, w, es⟩
  · simp [FS.entries, hr] at hx
  · have hx' : x ∈ es := by simpa [FS.entries, hr] using hx
    cases hl : lookupNode d es with
    | some n =>
      have hres : (osMkdirAll fs [d]).1 = fs := by
        unfold osMkdirAll
        simp only [hr, hl]
        split <;> rfl
      rw [hres]; exact hx
    | none =>
      cases w with
      | false =>
        have hres : (osMkdirAll fs [d]).1 = fs := by
          unfold osMkdirAll; simp [hr, hl]
        rw [hres]; exact hx
      | true =>
        have hres : (osMkdirAll fs [d]).1
            = ⟨.present l true (insertNode ⟨d, true, true, none⟩ es), fs.fsizeLimit⟩ := by
          unfold osMkdirAll; simp [hr, hl]
        rw [hres]
        simp only [FS.entries]
        exact mem_insertNode_old _ _ _ hx'

/-- Every entry from before a call of `WriteHistoryEntry` is still there after
it, with its name and kind, with an `options` file if it had one, and
unchanged unless it carries the name of the computed hash. -/
theorem WriteHistoryEntry_keeps (X : Externals Config Opts Tm) (now : Tm) (fs : FS)
    (conf : Config) (x : Node) (hx : x ∈ fs.entries) :
    ∃ y ∈ (WriteHistoryEntry X now fs conf).2.entries,
      y.name = x.name ∧ y.isDir = x.isDir ∧ (x.options.isSome = true → y.options.isSome = true)
        ∧ (x.name ≠ recordHash X now conf → y = x) := by
  by_cases h1 : (X.jsonMarshal { ConfigOptions := X.ToOptions conf, Time := now }).2 = none
  · by_cases h2 : (createConfigDir fs [recordHash X now conf]).2 = none
    · obtain ⟨l, w, es, n, hfs1, hl, hd, _⟩ := osMkdirAll_ok fs _ h2
      have hx1 := osMkdirAll_keeps fs (recordHash X now conf) x hx
      have hfs1' : (createConfigDir fs [recordHash X now conf]).1
          = ⟨.present l w es, fs.fsizeLimit⟩ := hfs1
      rw [WriteHistoryEntry_written X now fs conf h1 h2]
      simp only
      rw [hfs1']
      have hx2 : x ∈ es := by
        have : (osMkdirAll fs [recordHash X now conf]).1 = ⟨.present l w es, fs.fsizeLimit⟩ :=
          hfs1
        rw [this] at hx1
        exact hx1
      rcases osWriteFile_result ⟨.present l w es, fs.fsizeLimit⟩ (recordHash X now conf)
        (recordBytes X now conf) l w es n rfl hl hd with ⟨hsame, _⟩ | ⟨f, hres, _, _, _⟩
      · rw [hsame]
        exact ⟨x, hx2, rfl, rfl, fun h => h, fun _ => rfl⟩
      · rw [hres]
        have hname := (lookupNode_some _ es n hl).1
        rcases mem_replaceNode_old (recordHash X now conf) { n with options := some f } n es hl
          hname x hx2 with hin | ⟨hxn, hin⟩
        · exact ⟨x, hin, rfl, rfl, fun h => h, fun _ => rfl⟩
        · subst hxn
          exact ⟨_, hin, rfl, rfl, fun _ => rfl, fun hne => absurd hname hne⟩
    · rw [WriteHistoryEntry_mkdirError X now fs conf h1 h2]
      exact ⟨x, hx, rfl, rfl, fun h => h, fun _ => rfl⟩
  · rw [WriteHistoryEntry_marshalError X now fs conf h1]
    exact ⟨x, hx, rfl, rfl, fun h => h, fun _ => rfl⟩

/-- When `WriteHistoryEntry` returns the empty string, the state is the one
before the call. -/
theorem WriteHistoryEntry_empty_hash (X : Externals Config Opts Tm) (now : Tm) (fs : FS)
    (conf : Config) (h : (WriteHistoryEntry X now fs conf).1.1 = str "") :
    (WriteHistoryEntry X now fs conf).2 = fs := by
  by_cases h1 : (X.jsonMarshal { ConfigOptions := X.ToOptions conf, Time := now }).2 = none
  · by_cases h2 : (createConfigDir fs [recordHash X now conf]).2 = none
    · rw [WriteHistoryEntry_written X now fs conf h1 h2] at h
      simp only at h
      have hlen := calculateHistoryHash_length (recordBytes X now conf)
      unfold recordHash at h
      rw [h] at hlen
      simp [str] at hlen
    · rw [WriteHistoryEntry_mkdirError X now fs conf h1 h2]
  · rw [WriteHistoryEntry_marshalError X now fs conf h1]

theorem WriteHistoryEntry_addsOnly (X : Externals Config Opts Tm) (now : Tm) (fs : FS)
    (conf : Config) :
    AddsOnly (recordHash X now conf) fs (WriteHistoryEntry X now fs conf).2 := by
  intro x hx
  rcases WriteHistoryEntry_entries X now fs conf x hx with h | h | h
  · exact Or.inl h
  · exact Or.inr (by rw [h])
  · exact Or.inr h

set_option maxRecDepth 100000 in
/-- C11 at a failing input: in a store where the write stops after four bytes,
`WriteHistoryEntry` returns the full hash of the sample snapshot together with
the error of `os.WriteFile`, where the two earlier error returns of the
function give the empty string. -/
theorem C11_hash_returned_with_write_error :
    (WriteHistoryEntry sampleX 1 limitedStore sampleConf).1
      = (hashC, some (.pathError "write" [hashC, str "options"] .EFBIG)) ∧
    hashC ≠ str "" := by
  refine ⟨by decide, by decide⟩

set_option maxRecDepth 100000 in
/-- C12, as stated, fails: in an empty store where the write stops after four
bytes, `WriteHistoryEntry` returns an error and leaves a directory that was
not there before. -/
theorem C12_counterexample :
    (WriteHistoryEntry sampleX 1 limitedStore sampleConf).1.2 ≠ none ∧
      limitedStore.entries = [] ∧
      (WriteHistoryEntry sampleX 1 limitedStore sampleConf).2.entries
        = [⟨hashC, true, true, some ⟨str "\x7b\"ur", true, true⟩⟩] := by
  refine ⟨by decide, by decide, by decide⟩

/-- C12, amended: whenever `WriteHistoryEntry` returns a non-nil error, every
directory that was under the history directory before the call is still
there, with an `options` file if it had one, and unchanged unless it is the
one named by the computed hash; the only directory that can be new is the one
named by that hash; and when the returned hash is empty (serialization or
directory creation failed) the state is the one before the call. -/
theorem C12_failure_frame (X : Externals Config Opts Tm) (now : Tm) (fs : FS)
    (conf : Config) (_herr : (WriteHistoryEntry X now fs conf).1.2 ≠ none) :
    Keeps (recordHash X now conf) fs (WriteHistoryEntry X now fs conf).2 ∧
      AddsOnly (recordHash X now conf) fs (WriteHistoryEntry X now fs conf).2 ∧
      ((WriteHistoryEntry X now fs conf).1.1 = str "" →
        (WriteHistoryEntry X now fs conf).2 = fs) :=
  ⟨fun x hx => WriteHistoryEntry_keeps X now fs conf x hx,
    WriteHistoryEntry_addsOnly X now fs conf,
    WriteHistoryEntry_empty_hash X now fs conf⟩

set_option maxRecDepth 100000 in
/-- Witness of C12, amended: a failing record in a store with two locations. -/
theorem C12_failure_frame_witness :
    (WriteHistoryEntry sampleX 1 fullStore sampleConf).1.2 ≠ none ∧
      Keeps (recordHash sampleX 1 sampleConf) fullStore
        (WriteHistoryEntry sampleX 1 fullStore sampleConf).2 ∧
      AddsOnly (recordHash sampleX 1 sampleConf) fullStore
        (WriteHistoryEntry sampleX 1 fullStore sampleConf).2 ∧
      ((WriteHistoryEntry sampleX 1 fullStore sampleConf).1.1 = str "" →
        (WriteHistoryEntry sampleX 1 fullStore sampleConf).2 = fullStore) :=
  ⟨by decide, C12_failure_frame sampleX 1 fullStore sampleConf (by decide)⟩

/-- C13: the store is append-only. After a call of `WriteHistoryEntry` every
entry of the history directory from before the call is still there, and every
one not named by the hash the call computed is unchanged, the bytes of its
`options` file included; a call of `SearchHash` leaves the state as it is. -/
theorem C13_append_only (X : Externals Config Opts Tm) (fs : FS) (c : Call Config Tm) :
    match c with
    | .record now conf => Keeps (recordHash X now conf) fs (stateAfter X fs c)
    | .locate _ => stateAfter X fs c = fs := by
  cases c with
  | record now conf => exact fun x hx => WriteHistoryEntry_keeps X now fs conf x hx
  | locate s => rfl

/-- C14: when `WriteHistoryEntry` succeeds, the hash it returns has 64
characters, each in `0-9a-f`; the history directory then holds a directory of
that name whose `options` file holds the serialized bytes, the hash is the
hexadecimal form of the SHA-256 digest of exactly these bytes, and the file is
the one read at `<HISTORYDIR>/<hash>/options`. -/
theorem C14_hash_and_layout (X : Externals Config Opts Tm) (now : Tm) (fs : FS)
    (conf : Config) (hok : (WriteHistoryEntry X now fs conf).1.2 = none) :
    (WriteHistoryEntry X now fs conf).1.1.length = 64 ∧
    (WriteHistoryEntry X now fs conf).1.1.all isLowerHex = true ∧
    ∃ n f, lookupNode (WriteHistoryEntry X now fs conf).1.1
          (WriteHistoryEntry X now fs conf).2.entries = some n ∧
      n.isDir = true ∧ n.options = some f ∧ f.data = recordBytes X now conf ∧
      (WriteHistoryEntry X now fs conf).1.1 = sprintfHex (sha256Sum256 f.data) ∧
      (f.readable = true →
        osReadFile (WriteHistoryEntry X now fs conf).2
            (filepathJoin HISTORYDIR [(WriteHistoryEntry X now fs conf).1.1, str "options"])
          = (f.data, none)) := by
  obtain ⟨hh, l, w, es, n, f, hfs, hl, hd, ho, hdata, _⟩ :=
    WriteHistoryEntry_success X now fs conf hok
  rw [hh, hfs]
  refine ⟨calculateHistoryHash_length _, calculateHistoryHash_lowerHex _, n, f, hl, hd, ho,
    hdata, ?_, fun hr => ?_⟩
  · rw [hdata]; rfl
  · have := osReadFile_lookup ⟨.present l w es, fs.fsizeLimit⟩ (recordHash X now conf) l w es n f
      rfl hl hd ho
    rw [hr] at this
    exact this

set_option maxRecDepth 100000 in
/-- Witness of C14: the sample configuration recorded in an empty store. -/
theorem C14_hash_and_layout_witness :
    (WriteHistoryEntry sampleX 1700000099 emptyStore sampleConf).1 = (hashA, none) ∧
      osReadFile (WriteHistoryEntry sampleX 1700000099 emptyStore sampleConf).2
          (filepathJoin HISTORYDIR [hashA, str "options"])
        = (str "\x7b\"url\":\"http://t/FUZZ\",\"time\":1700000099\x7d", none) ∧
      (WriteHistoryEntry sampleX 1700000099 emptyStore sampleConf).1.1.length = 64 :=
  ⟨by decide, by decide,
    (C14_hash_and_layout sampleX 1700000099 emptyStore sampleConf (by decide)).1⟩

/-- C15, as stated, fails: the history directory of `lockedStore` exists and
holds no directory, the identifier `abcde1f` has the format of the
specification and decodes to position 31, and `SearchHash` returns position 0
and the error of `os.ReadDir`, which cannot list the directory. -/
theorem C15_counterexample :
    lockedStore.root = .present false true [] ∧
      MatchesFormat (str "abcde1f") ∧ Decodes (str "abcde1f") ∧
      (ParseInt ((str "abcde1f").drop 5) 16 32).1 = 31 ∧
      SearchHash sampleX lockedStore (str "abcde1f")
        = ([], 0, some (.pathError "open" HISTORYDIR .EACCES)) := by
  refine ⟨rfl, by decide, by decide, by decide, by decide⟩

/-- C15, amended: for every identifier that decodes, `SearchHash` against a
history directory that can be listed and holds no directory at all, or no
directory whose name starts, letter case aside, with the first five bytes of
the identifier, returns the empty sequence, the decoded position and no
error. -/
theorem C15_no_match_is_empty (X : Externals Config Opts Tm) (fs : FS) (s : GoString)
    (hd : Decodes s) (hl : Listable fs)
    (hnone : (∀ e ∈ (osReadDir fs HISTORYDIR).1, e.IsDir = false) ∨
      (∀ e ∈ (osReadDir fs HISTORYDIR).1, e.IsDir = true →
        stringsHasPrefix (stringsToLower X.caseTable e.Name)
          (stringsToLower X.caseTable (s.take 5)) = false)) :
    SearchHash X fs s = ([], (ParseInt (s.drop 5) 16 32).1, none) := by
  rw [SearchHash_listed X fs s hd hl]
  have hfilter : (osReadDir fs HISTORYDIR).1.filter (matchesEntry X.caseTable s) = [] := by
    rw [List.filter_eq_nil_iff]
    intro e he
    unfold matchesEntry
    rcases hnone with h | h
    · simp [h e he]
    · cases hdir : e.IsDir with
      | false => simp
      | true => simp [h e he hdir]
  unfold locateSpec
  rw [hfilter]
  rfl

/-- Witness of C15: an empty history directory, and one whose two locations do
not match the prefix. -/
theorem C15_no_match_is_empty_witness :
    SearchHash sampleX emptyStore (str "abcde1f") = ([], 31, none) ∧
      SearchHash sampleX corruptStore (str "abcde1f") = ([], 31, none) :=
  ⟨C15_no_match_is_empty sampleX emptyStore (str "abcde1f") (by decide) (by decide)
      (Or.inl (by decide)),
    C15_no_match_is_empty sampleX corruptStore (str "abcde1f") (by decide) (by decide)
      (Or.inr (by decide))⟩

/-- C20: whenever `SearchHash` returns a non-nil error, the sequence it returns
is empty and the position is 0, also when the identifier decoded to a
position other than 0 and the history directory could not be listed. -/
theorem C20_error_result_is_empty (X : Externals Config Opts Tm) (fs : FS) (s : GoString)
    (herr : (SearchHash X fs s).2.2 ≠ none) :
    (SearchHash X fs s).1 = [] ∧ (SearchHash X fs s).2.1 = 0 := by
  by_cases hd : Decodes s
  · by_cases hl : Listable fs
    · rw [SearchHash_listed X fs s hd hl] at herr
      exact absurd rfl herr
    · rw [SearchHash_unlistable X fs s hd hl]
      exact ⟨rfl, rfl⟩
  · by_cases h6 : s.length < 6
    · rw [SearchHash_short X fs s h6]; exact ⟨rfl, rfl⟩
    · have h6' : 6 ≤ s.length := by omega
      have hp : (ParseInt (s.drop 5) 16 32).2 ≠ none := fun hp => hd ⟨h6', hp⟩
      rw [SearchHash_badPosition X fs s h6' hp]; exact ⟨rfl, rfl⟩

/-- Witness of C20: "abcde1f" decodes to position 31, the history directory is
missing, and the result is the empty sequence with position 0. -/
theorem C20_error_result_is_empty_witness :
    (ParseInt ((str "abcde1f").drop 5) 16 32) = (31, none) ∧
      (SearchHash sampleX noStore (str "abcde1f")).2.2 ≠ none ∧
      (SearchHash sampleX noStore (str "abcde1f")).1 = [] ∧
      (SearchHash sampleX noStore (str "abcde1f")).2.1 = 0 :=
  ⟨by decide, by decide,
    C20_error_result_is_empty sampleX noStore (str "abcde1f") (by decide)⟩

/-! ## Decimal integers: `strconv.Atoi` -/

/-! ## Decimal numbers (`strconv.Atoi`) -/

theorem isDecDigit_iff (c : Nat) : isDecDigit c = true ↔ 0x30 ≤ c ∧ c ≤ 0x39 := by
  unfold isDecDigit
  simp only [Bool.and_eq_true, decide_eq_true_eq]

theorem decFold_ge (cs : GoString) (n : Nat) :
    n ≤ cs.foldl (fun n c => 10 * n + (c - 0x30)) n := by
  induction cs generalizing n with
  | nil => simp
  | cons c cs ih =>
    simp only [List.foldl_cons]
    exact le_trans (by omega) (ih _)

theorem decFold_lt (cs : GoString) (n : Nat) (h : cs.all isDecDigit = true) :
    cs.foldl (fun n c => 10 * n + (c - 0x30)) n < (n + 1) * 10 ^ cs.length := by
  induction cs generalizing n with
  | nil => simp
  | cons c cs ih =>
    simp only [List.all_cons, Bool.and_eq_true] at h
    have hc := (isDecDigit_iff c).mp h.1
    simp only [List.foldl_cons, List.length_cons]
    have h1 := ih (10 * n + (c - 0x30)) h.2
    have h2 : (10 * n + (c - 0x30) + 1) * 10 ^ cs.length ≤ (n + 1) * 10 ^ (cs.length + 1) := by
      have e : (n + 1) * 10 ^ (cs.length + 1) = (10 * (n + 1)) * 10 ^ cs.length := by ring
      rw [e]
      exact Nat.mul_le_mul_right _ (by omega)
    omega

theorem atoiLoop_spec (cs : GoString) (n : Nat) :
    atoiLoop cs n
      = if cs.all isDecDigit = true then some (cs.foldl (fun n c => 10 * n + (c - 0x30)) n)
        else none := by
  induction cs generalizing n with
  | nil => simp [atoiLoop]
  | cons c cs ih =>
    simp only [atoiLoop, List.all_cons, List.foldl_cons, Bool.and_eq_true]
    by_cases hc : isDecDigit c = true
    · have hc' := (isDecDigit_iff c).mp hc
      have h1 : ¬ c < 0x30 := by omega
      have h2 : ¬ c - 0x30 > 9 := by omega
      have h3 : n * 10 + (c - 0x30) = 10 * n + (c - 0x30) := by omega
      simp only [h1, h2, if_false, hc, true_and, ih, h3]
    · have hc' : ¬ (0x30 ≤ c ∧ c ≤ 0x39) := fun h => hc ((isDecDigit_iff c).mpr h)
      by_cases h1 : c < 0x30
      · have h2 : c + 0xD0 > 9 := by omega
        simp [h1, h2, hc]
      · have h2 : c - 0x30 > 9 := by omega
        simp [h1, h2, hc]

theorem digitOf_dec (c : Nat) (h : isDecDigit c = true) : digitOf c = some (c - 0x30) := by
  have hc := (isDecDigit_iff c).mp h
  unfold digitOf
  simp [hc.1, hc.2]

theorem dec_of_digitOf (c d : Nat) (h : digitOf c = some d) (hd : d < 10) :
    isDecDigit c = true := by
  unfold digitOf at h
  split at h
  · rename_i h1
    exact (isDecDigit_iff c).mpr h1
  · split at h
    · simp only [Option.some.injEq] at h
      omega
    · simp at h

theorem parseUintLoop_ok_dec (cutoff maxVal : Nat) (cs : GoString) (n : Nat)
    (h : (parseUintLoop 10 cutoff maxVal cs n).2 = none) : cs.all isDecDigit = true := by
  induction cs generalizing n with
  | nil => rfl
  | cons c cs ih =>
    unfold parseUintLoop at h
    cases hd : digitOf c with
    | none => simp [hd] at h
    | some d =>
      simp only [hd] at h
      by_cases h1 : d ≥ 10
      · simp [h1] at h
      · by_cases h2 : n ≥ cutoff
        · simp [h1, h2] at h
        · have hc : isDecDigit c = true := dec_of_digitOf c d hd (by omega)
          simp only [h1, h2, if_false] at h
          simp only [List.all_cons, hc, Bool.true_and]
          split at h
          · simp at h
          · exact ih _ h

theorem parseUintLoop_dec (cs : GoString) (n : Nat) (hcs : cs.all isDecDigit = true)
    (hn : n ≤ 18446744073709551615) :
    parseUintLoop 10 1844674407370955162 18446744073709551615 cs n
      = if cs.foldl (fun n c => 10 * n + (c - 0x30)) n ≤ 18446744073709551615
        then (cs.foldl (fun n c => 10 * n + (c - 0x30)) n, none)
        else (18446744073709551615, some .ErrRange) := by
  induction cs generalizing n with
  | nil => simp [parseUintLoop, hn]
  | cons c cs ih =>
    simp only [List.all_cons, Bool.and_eq_true] at hcs
    have hd := digitOf_dec c hcs.1
    have hc := (isDecDigit_iff c).mp hcs.1
    have hge := decFold_ge cs (10 * n + (c - 0x30))
    simp only [parseUintLoop, hd, List.foldl_cons]
    have c1 : ¬ c - 0x30 ≥ 10 := by omega
    simp only [c1, if_false]
    by_cases h2 : n ≥ 1844674407370955162
    · have c4 : ¬ cs.foldl (fun n c => 10 * n + (c - 0x30)) (10 * n + (c - 0x30))
          ≤ 18446744073709551615 := by omega
      simp only [h2, c4, if_true, if_false]
    · simp only [h2, if_false]
      have e1 : (n * 10) % 2 ^ 64 = n * 10 := Nat.mod_eq_of_lt (by omega)
      simp only [e1]
      by_cases hbig : n * 10 + (c - 0x30) < 2 ^ 64
      · have e2 : (n * 10 + (c - 0x30)) % 2 ^ 64 = n * 10 + (c - 0x30) :=
          Nat.mod_eq_of_lt hbig
        have e3 : 10 * n + (c - 0x30) = n * 10 + (c - 0x30) := by omega
        rw [e3] at hge ⊢
        simp only [e2]
        have c3 : ¬ (n * 10 + (c - 0x30) < n * 10
            ∨ n * 10 + (c - 0x30) > 18446744073709551615) := by omega
        simp only [c3, if_false]
        exact ih _ hcs.2 (by omega)
      · have e2 : (n * 10 + (c - 0x30)) % 2 ^ 64 = n * 10 + (c - 0x30) - 2 ^ 64 := by
          rw [Nat.mod_eq_sub_mod (by omega)]
          exact Nat.mod_eq_of_lt (by omega)
        have c3 : (n * 10 + (c - 0x30)) % 2 ^ 64 < n * 10
            ∨ (n * 10 + (c - 0x30)) % 2 ^ 64 > 18446744073709551615 := by
          left; rw [e2]; omega
        have c4 : ¬ cs.foldl (fun n c => 10 * n + (c - 0x30)) (10 * n + (c - 0x30))
            ≤ 18446744073709551615 := by omega
        simp only [c3, c4, if_true, if_false]

theorem ParseInt_dec (s : GoString) :
    (∀ v, decInt s = some v → ParseInt s 10 intSize = (v, none)) ∧
    (decInt s = none → (ParseInt s 10 intSize).2 ≠ none) := by
  cases s with
  | nil => simp [decInt, ParseInt]
  | cons c cs =>
    have hcut : (2 ^ 64 - 1) / 10 + 1 = 1844674407370955162 := by norm_num
    have hmax : 2 ^ 64 - 1 = 18446744073709551615 := by norm_num
    have hhalf : 2 ^ (64 - 1) = 9223372036854775808 := by norm_num
    have h63 : (2 : Nat) ^ 63 = 9223372036854775808 := by norm_num
    unfold decInt ParseInt ParseUint intSize
    simp only [hcut, hmax, hhalf, h63]
    generalize hds : (if c = 0x2D ∨ c = 0x2B then cs else c :: cs) = ds
    have hds' : (if c = 0x2B ∨ c = 0x2D then cs else c :: cs) = ds := by
      rw [← hds]
      by_cases h1 : c = 0x2D <;> by_cases h2 : c = 0x2B <;> simp [h1, h2]
    simp only [hds']
    by_cases hne : ds = []
    · simp [hne]
    · simp only [hne, if_false, ne_eq, not_false_eq_true, true_and]
      by_cases hall : ds.all isDecDigit = true
      · have hloop := parseUintLoop_dec ds 0 hall (by omega)
        simp only [hall, if_true, hloop]
        unfold decValue
        generalize ds.foldl (fun n c => 10 * n + (c - 0x30)) 0 = v
        by_cases hneg : c = 0x2D
        · simp only [hneg, if_true, decide_True]
          by_cases hv : v ≤ 9223372036854775808
          · have hv2 : v ≤ 18446744073709551615 := by omega
            have hv3 : ¬ v > 9223372036854775808 := by omega
            simp [hv, hv2, hv3]
          · by_cases hv2 : v ≤ 18446744073709551615
            · have hv3 : v > 9223372036854775808 := by omega
              simp [hv, hv2, hv3]
            · simp [hv, hv2]
        · simp only [hneg, if_false, decide_False]
          by_cases hv : v < 9223372036854775808
          · have hv2 : v ≤ 18446744073709551615 := by omega
            have hv3 : ¬ v ≥ 9223372036854775808 := by omega
            simp [hv, hv2, hv3]
          · by_cases hv2 : v ≤ 18446744073709551615
            · have hv3 : v ≥ 9223372036854775808 := by omega
              simp [hv, hv2, hv3]
            · simp [hv, hv2]
      · simp only [hall, Bool.false_eq_true, if_false, reduceCtorEq, false_implies,
          implies_true, true_and, forall_const]
        have hres := parseUintLoop_result 10 1844674407370955162 18446744073709551615
          (by omega) ds 0
        have hok := parseUintLoop_ok_dec 1844674407370955162 18446744073709551615 ds 0
        rcases hl : parseUintLoop 10 1844674407370955162 18446744073709551615 ds 0
          with ⟨un, err⟩
        rw [hl] at hres hok
        cases err with
        | none => exact absurd (hok rfl) hall
        | some e =>
          cases e with
          | ErrSyntax => simp
          | ErrRange =>
            have hun : un = 18446744073709551615 := hres.2 rfl
            subst hun
            by_cases hneg : c = 0x2D <;> simp [hneg]

theorem Atoi_spec (s : GoString) :
    (∀ v, decInt s = some v → Atoi s = (v, none)) ∧
    (decInt s = none → (Atoi s).2 ≠ none) := by
  unfold Atoi
  by_cases hlen : 0 < s.length ∧ s.length < 19
  · rw [if_pos hlen]
    cases s with
    | nil => simp at hlen
    | cons c cs =>
      unfold decInt
      simp only
      generalize hds : (if c = 0x2D ∨ c = 0x2B then cs else c :: cs) = ds
      have hdslen : ds.length ≤ 18 := by
        rw [← hds]
        simp only [List.length_cons] at hlen
        split
        · omega
        · simp only [List.length_cons]; omega
      by_cases hne : ds = []
      · simp [hne]
      · have hpos : ¬ ds.length < 1 := by
          cases ds with
          | nil => exact absurd rfl hne
          | cons _ _ => simp
        simp only [hpos, if_false, hne, ne_eq, not_false_eq_true, true_and, atoiLoop_spec]
        by_cases hall : ds.all isDecDigit = true
        · have hlt := decFold_lt ds 0 hall
          have hpow : 10 ^ ds.length ≤ 10 ^ 18 := Nat.pow_le_pow_right (by omega) hdslen
          have h63 : (2 : Nat) ^ 63 = 9223372036854775808 := by norm_num
          have h18 : (10 : Nat) ^ 18 = 1000000000000000000 := by norm_num
          simp only [hall, if_true, h63]
          unfold decValue
          generalize ds.foldl (fun n c => 10 * n + (c - 0x30)) 0 = v at hlt
          have hv : v < 9223372036854775808 := by omega
          have hv' : v ≤ 9223372036854775808 := by omega
          by_cases hneg : c = 0x2D <;> simp [hneg, hv, hv']
        · simp [hall]
  · rw [if_neg hlen]
    exact ParseInt_dec s

/-! ## The protocol version -/

/-! ## Cutting strings, and the protocol version (C19) -/

theorem indexByte_spec (d : Nat) (s : GoString) :
    match indexByte s d with
    | none => d ∉ s
    | some i => d ∈ s ∧ s.take i = textBefore d s ∧ s.drop (i + 1) = textAfter d s
        ∧ i < s.length := by
  induction s with
  | nil => simp [indexByte]
  | cons c cs ih =>
    unfold indexByte
    by_cases hc : c = d
    · subst hc
      simp [textBefore, textAfter]
    · simp only [hc, if_false]
      have hcb : (c != d) = true := by simpa using hc
      cases hi : indexByte cs d with
      | none =>
        rw [hi] at ih
        simp only [Option.map_none']
        intro hmem
        rcases List.mem_cons.mp hmem with h | h
        · exact hc h.symm
        · exact ih h
      | some i =>
        rw [hi] at ih
        simp only [Option.map_some']
        obtain ⟨h1, h2, h3, h4⟩ := ih
        refine ⟨List.mem_cons_of_mem _ h1, ?_, ?_, by simp only [List.length_cons]; omega⟩
        · simp only [List.take_succ_cons, textBefore, List.takeWhile_cons, hcb, if_true]
          rw [h2]; rfl
        · simp only [List.drop_succ_cons, textAfter, List.dropWhile_cons, hcb, if_true]
          rw [h3]; rfl

theorem textBefore_of_not_mem (d : Nat) (s : GoString) (h : d ∉ s) : textBefore d s = s := by
  unfold textBefore
  rw [List.takeWhile_eq_self_iff]
  intro c hc
  have : c ≠ d := fun e => h (e ▸ hc)
  simpa using this

theorem stringsCut_spec (s : GoString) (d : Nat) :
    stringsCut s d
      = if d ∈ s then (textBefore d s, textAfter d s, true) else (s, [], false) := by
  have h := indexByte_spec d s
  unfold stringsCut
  cases hi : indexByte s d with
  | none =>
    rw [hi] at h
    simp only at h
    simp [h]
  | some i =>
    rw [hi] at h
    obtain ⟨h1, h2, h3, _⟩ := h
    simp [h1, h2, h3]

theorem parseHTTPVersion_eq_spec (vers : GoString) :
    parseHTTPVersion vers = versionSpec vers := by
  unfold parseHTTPVersion versionSpec
  rw [stringsCut_spec vers 0x2F]
  by_cases hslash : 0x2F ∈ vers
  · simp only [hslash, if_true, not_true_eq_false, if_false]
    rw [stringsCut_spec (textAfter 0x2F vers) 0x2E]
    by_cases hdot : 0x2E ∈ textAfter 0x2F vers
    · simp only [hdot, if_true, not_true_eq_false, if_false]
      have hmaj := Atoi_spec (textBefore 0x2E (textAfter 0x2F vers))
      cases hj : decInt (textBefore 0x2E (textAfter 0x2F vers)) with
      | none =>
        have h1 := hmaj.2 hj
        rcases ha : Atoi (textBefore 0x2E (textAfter 0x2F vers)) with ⟨v, e⟩
        rw [ha] at h1
        cases e with
        | none => exact absurd rfl h1
        | some e => simp
      | some major =>
        rw [hmaj.1 major hj]
        simp only [Option.isSome_none, Bool.false_eq_true, if_false]
        have hmin := Atoi_spec (textAfter 0x2E (textAfter 0x2F vers))
        cases hn : decInt (textAfter 0x2E (textAfter 0x2F vers)) with
        | none =>
          have h1 := hmin.2 hn
          rcases ha : Atoi (textAfter 0x2E (textAfter 0x2F vers)) with ⟨v, e⟩
          rw [ha] at h1
          cases e with
          | none => exact absurd rfl h1
          | some e => simp
        | some minor =>
          rw [hmin.1 minor hn]
          simp
    · simp only [hdot, if_false, not_false_eq_true, if_true]
      rw [textBefore_of_not_mem 0x2E _ hdot]
      have hmaj := Atoi_spec (textAfter 0x2F vers)
      cases hj : decInt (textAfter 0x2F vers) with
      | none =>
        have h1 := hmaj.2 hj
        rcases ha : Atoi (textAfter 0x2F vers) with ⟨v, e⟩
        rw [ha] at h1
        cases e with
        | none => exact absurd rfl h1
        | some e => simp
      | some major =>
        rw [hmaj.1 major hj]
        simp
  · simp [hslash]

/-! ## The buffered reader on a fresh input -/

/-! ## Reading the first line (`bufio.Reader.ReadString`) -/

theorem indexByte_nil (d : Nat) : indexByte [] d = none := rfl

theorem indexByte_cons (c d : Nat) (cs : List Nat) :
    indexByte (c :: cs) d = if c = d then some 0 else (indexByte cs d).map fun i => i + 1 :=
  rfl

theorem indexByte_append (a x : List Nat) (d : Nat) :
    indexByte (a ++ x) d
      = match indexByte a d with
        | some i => some i
        | none => (indexByte x d).map fun j => j + a.length := by
  induction a with
  | nil =>
    rw [List.nil_append, indexByte_nil]
    cases indexByte x d <;> simp
  | cons c cs ih =>
    rw [List.cons_append, indexByte_cons, indexByte_cons, ih]
    by_cases hc : c = d
    · simp [hc]
    · simp only [hc, if_false]
      cases indexByte cs d with
      | some i => rfl
      | none =>
        cases indexByte x d with
        | none => rfl
        | some j =>
          simp only [Option.map_some', Option.map_none', List.length_cons, Nat.add_assoc]

theorem indexByte_lt (s : List Nat) (d i : Nat) (h : indexByte s d = some i) :
    i < s.length := by
  induction s generalizing i with
  | nil => simp [indexByte] at h
  | cons c cs ih =>
    unfold indexByte at h
    by_cases hc : c = d
    · simp only [hc, if_true, Option.some.injEq] at h
      subst h; simp
    · simp only [hc, if_false] at h
      cases hj : indexByte cs d with
      | none => rw [hj] at h; simp at h
      | some j =>
        rw [hj] at h
        simp only [Option.map_some', Option.some.injEq] at h
        have := ih j hj
        simp only [List.length_cons]
        omega

/-- One call of `ReadSlice` on a reader with an empty buffer and no pending
error: the line, if the first 4096 bytes hold a delimiter; else a full buffer;
else all that is left and `io.EOF`. -/
theorem readSliceLoop_fresh (d n : Nat) (rest : List Nat) :
    readSliceLoop d (n + 1 + 1 + 1) ⟨[], ⟨rest⟩, none⟩
      = match indexByte (rest.take 4096) d with
        | some i =>
          (((rest.take 4096).take (i + 1), none),
            ⟨(rest.take 4096).drop (i + 1), ⟨rest.drop 4096⟩, none⟩)
        | none =>
          if 4096 ≤ rest.length then
            ((rest.take 4096, some .ErrBufferFull), ⟨[], ⟨rest.drop 4096⟩, none⟩)
          else ((rest, some .EOF), ⟨[], ⟨[]⟩, none⟩) := by
  by_cases hne : rest = []
  · subst hne
    rw [readSliceLoop]
    dsimp only
    rw [indexByte_nil]
    dsimp only
    rw [if_neg (by decide)]
    have hfill : (⟨[], ⟨[]⟩, none⟩ : BufioReader).fill = ⟨[], ⟨[]⟩, some .EOF⟩ := by
      simp [BufioReader.fill, ReadCloser.Read]
    rw [hfill, readSliceLoop]
    dsimp only
    rw [indexByte_nil]
    rfl
  · have hfill : (⟨[], ⟨rest⟩, none⟩ : BufioReader).fill
        = ⟨rest.take 4096, ⟨rest.drop 4096⟩, none⟩ := by
      simp [BufioReader.fill, ReadCloser.Read, defaultBufSize, hne]
    rw [readSliceLoop]
    dsimp only
    rw [indexByte_nil]
    dsimp only
    rw [if_neg (by decide), hfill, readSliceLoop]
    dsimp only
    cases hi : indexByte (rest.take 4096) d with
    | some i => rfl
    | none =>
      dsimp only
      by_cases hlen : 4096 ≤ rest.length
      · have h1 : (rest.take 4096).length ≥ defaultBufSize := by
          simp [List.length_take, defaultBufSize, hlen]
        rw [if_pos h1, if_pos hlen]
      · have h1 : ¬ (rest.take 4096).length ≥ defaultBufSize := by
          simp only [List.length_take, defaultBufSize]; omega
        have htake : rest.take 4096 = rest := List.take_of_length_le (by omega)
        have hdrop : rest.drop 4096 = [] := List.drop_of_length_le (by omega)
        rw [if_neg h1, if_neg hlen]
        rw [htake] at hi ⊢
        rw [hdrop]
        have hfill2 : (⟨rest, ⟨[]⟩, none⟩ : BufioReader).fill = ⟨rest, ⟨[]⟩, some .EOF⟩ := by
          simp [BufioReader.fill, ReadCloser.Read]
        rw [hfill2, readSliceLoop]
        dsimp only
        rw [hi]

/-- The line `ReadString` returns on a reader with an empty buffer and no
pending error: the input up to and including the first delimiter, or all of
the input and `io.EOF`. -/
theorem collectLoop_fresh (d : Nat) (fuel : Nat) (rest acc : List Nat)
    (hfuel : rest.length < fuel) :
    (collectLoop d fuel ⟨[], ⟨rest⟩, none⟩ acc).1
      = match indexByte rest d with
        | some i => (acc ++ rest.take (i + 1), none)
        | none => (acc ++ rest, some .EOF) := by
  induction fuel generalizing rest acc with
  | zero => omega
  | succ fuel ih =>
    have hsplit : indexByte rest d
        = match indexByte (rest.take 4096) d with
          | some i => some i
          | none => (indexByte (rest.drop 4096) d).map fun j => j + (rest.take 4096).length := by
      rw [← indexByte_append, List.take_append_drop]
    rw [collectLoop]
    have hrs : (⟨[], ⟨rest⟩, none⟩ : BufioReader).ReadSlice d
        = readSliceLoop d (4095 + 1 + 1 + 1) ⟨[], ⟨rest⟩, none⟩ := rfl
    rw [hrs, readSliceLoop_fresh]
    cases hi : indexByte (rest.take 4096) d with
    | some i =>
      rw [hi] at hsplit
      simp only [hsplit]
      have hlt := indexByte_lt _ _ _ hi
      have : (rest.take 4096).take (i + 1) = rest.take (i + 1) := by
        rw [List.take_take]
        congr 1
        simp only [List.length_take] at hlt
        omega
      rw [this]
    | none =>
      rw [hi] at hsplit
      simp only at hsplit ⊢
      by_cases hlen : 4096 ≤ rest.length
      · simp only [hlen, if_true]
        have hfuel' : (rest.drop 4096).length < fuel := by
          simp only [List.length_drop]; omega
        rw [ih (rest.drop 4096) (acc ++ rest.take 4096) hfuel', hsplit]
        have htl : (rest.take 4096).length = 4096 := by
          simp [List.length_take, hlen]
        cases hj : indexByte (rest.drop 4096) d with
        | none =>
          simp only [Option.map_none', List.append_assoc, List.take_append_drop]
        | some j =>
          simp only [Option.map_some', List.append_assoc, htl]
          have : rest.take (j + 4096 + 1) = rest.take 4096 ++ (rest.drop 4096).take (j + 1) := by
            have e : j + 4096 + 1 = 4096 + (j + 1) := by omega
            rw [e, List.take_add]
          rw [this]
      · simp only [hlen, if_false]
        have htake : rest.take 4096 = rest := List.take_of_length_le (by omega)
        rw [htake] at hi
        rw [hi]

theorem ReadString_fresh (r : ReadCloser) (d : Nat) :
    ((bufioNewReader r).ReadString d).1
      = match indexByte r.rest d with
        | some i => (r.rest.take (i + 1), none)
        | none => (r.rest, some .EOF) := by
  unfold BufioReader.ReadString bufioNewReader
  have := collectLoop_fresh d (0 + r.rest.length + 1) r.rest [] (by omega)
  simpa using this

/-! ## The raw request -/

/-! ## The request line (C16 to C19) -/

theorem httpNewRequest_cases (X : HttpExternals URL) (m u : GoString) :
    (∃ e, httpNewRequest X m u = (none, some e)) ∨
    (∃ req, httpNewRequest X m u = (some req, none)) := by
  unfold httpNewRequest
  dsimp only
  generalize (if m = [] then str "GET" else m) = m'
  by_cases hv : m'.all validHeaderFieldByte = true
  · rw [if_neg (by simp [hv])]
    rcases hu : X.urlParse u with ⟨v, e⟩
    cases e with
    | some e => exact Or.inl ⟨e, rfl⟩
    | none => exact Or.inr ⟨_, rfl⟩
  · rw [if_pos hv]
    exact Or.inl ⟨_, rfl⟩

theorem ParseRawRequest_newRequestError (X : HttpExternals URL) (r : ReadCloser) (e : String)
    (h0 : httpNewRequest X (str "") (str "") = (none, some e)) :
    ParseRawRequest X r
      = (none, some (.errorf "could not create empty http.Request: %s" [e])) := by
  rw [ParseRawRequest, h0]

theorem ParseRawRequest_noLine (X : HttpExternals URL) (r : ReadCloser) (req0 : Request URL)
    (h0 : httpNewRequest X (str "") (str "") = (some req0, none))
    (hl : firstLine r.rest = none) :
    ParseRawRequest X r = (none, some (.errorf "could not read request: %s" ["EOF"])) := by
  have hfresh := ReadString_fresh r 0x0A
  unfold firstLine at hl
  cases hi : indexByte r.rest 0x0A with
  | some i => rw [hi] at hl; simp at hl
  | none =>
    rw [hi] at hfresh
    dsimp only at hfresh
    rw [ParseRawRequest, h0]
    dsimp only
    rcases hrs : (bufioNewReader r).ReadString 0x0A with ⟨⟨s, e⟩, b1⟩
    rw [hrs] at hfresh
    simp only [Prod.mk.injEq] at hfresh
    obtain ⟨_, he⟩ := hfresh
    subst he
    rfl

/-- The result of `ParseRawRequest` when the empty request could be made and
the input has a first line. -/
theorem ParseRawRequest_line (X : HttpExternals URL) (r : ReadCloser) (req0 : Request URL)
    (line : GoString)
    (h0 : httpNewRequest X (str "") (str "") = (some req0, none))
    (hl : firstLine r.rest = some line) :
    ParseRawRequest X r
      = if (requestParts X line).length < 3 then
          (none, some (.errorf "malformed request supplied" []))
        else if (parseHTTPVersion ((requestParts X line).getD 2 [])).2.2 = false then
          (none, some (.errorf "malformed http protocol version" []))
        else
          match X.urlParse ((requestParts X line).getD 1 []) with
          | (_, some e) => (none, some (.errorf "could not parse request URL: %s" [e]))
          | (u, none) =>
            (some ⟨(requestParts X line).getD 0 [], u,
              (parseHTTPVersion ((requestParts X line).getD 2 [])).1,
              (parseHTTPVersion ((requestParts X line).getD 2 [])).2.1,
              (headerLoop X (r.rest.length + 1) ((bufioNewReader r).ReadString 0x0A).2
                req0.Header).2,
              some (headerLoop X (r.rest.length + 1) ((bufioNewReader r).ReadString 0x0A).2
                req0.Header).1.rd⟩, none) := by
  have hfresh := ReadString_fresh r 0x0A
  unfold firstLine at hl
  cases hi : indexByte r.rest 0x0A with
  | none => rw [hi] at hl; simp at hl
  | some i =>
    rw [hi] at hfresh hl
    simp only [Option.some.injEq] at hl
    dsimp only at hfresh
    rw [hl] at hfresh
    rw [ParseRawRequest, h0]
    dsimp only
    rcases hrs : (bufioNewReader r).ReadString 0x0A with ⟨⟨s, e⟩, b1⟩
    rw [hrs] at hfresh
    simp only [Prod.mk.injEq] at hfresh
    obtain ⟨hs, he⟩ := hfresh
    subst hs he
    dsimp only
    unfold requestParts
    by_cases hp : (stringsSplit 0x20 (stringsTrimSpace X s)).length < 3
    · rw [if_pos hp, if_pos hp]
    · rw [if_neg hp, if_neg hp]
      rcases hv : parseHTTPVersion ((stringsSplit 0x20 (stringsTrimSpace X s)).getD 2 [])
        with ⟨major, minor, ok⟩
      dsimp only
      cases ok with
      | false => simp
      | true =>
        simp only [not_true_eq_false, if_false, Bool.true_eq_false]

/-- C16 at a failing input: for a request of 30 bytes that ends with the body
`BODY`, `ParseRawRequest` succeeds, and the reader it returns as the body of
the request has nothing left to read: the buffered reader has taken the whole
input, the body included, from `r` with its first read. -/
theorem C16_body_consumed_by_buffering :
    sampleRequest.rest = str "POST /x HTTP/1.1\nHost: a\n\n" ++ str "BODY" ∧
      (ParseRawRequest sampleH sampleRequest).2 = none ∧
      (ParseRawRequest sampleH sampleRequest).1.map (fun req => req.Body)
        = some (some ⟨[]⟩) := by
  refine ⟨by decide, by decide, by decide⟩

/-- C17 at a failing input: of the two lines `Content-Length : 4` and
`content-length: 4` the second is left out, and the first, whose name is
followed by a space, is added under the name `Content-Length`. -/
theorem C17_content_length_kept :
    (ParseRawRequest sampleH spacedRequest).2 = none ∧
      (ParseRawRequest sampleH spacedRequest).1.map (fun req => req.Header)
        = some [(str "Content-Length", [str "4"])] := by
  refine ⟨by decide, by decide⟩

/-- C18: `ParseRawRequest` returns an error and no request for every input
without a line feed, and for every input whose first line, trimmed, splits at
single spaces into fewer than three parts; and whenever it returns a request,
the first line has three parts or more, the method is the first part and the
URL is what `url.Parse` makes of the second. -/
theorem C18_request_line (X : HttpExternals URL) (r : ReadCloser) :
    (firstLine r.rest = none →
      (ParseRawRequest X r).1 = none ∧ (ParseRawRequest X r).2 ≠ none) ∧
    (∀ line, firstLine r.rest = some line → (requestParts X line).length < 3 →
      (ParseRawRequest X r).1 = none ∧ (ParseRawRequest X r).2 ≠ none) ∧
    (∀ req, ParseRawRequest X r = (some req, none) →
      ∃ line, firstLine r.rest = some line ∧ 3 ≤ (requestParts X line).length ∧
        req.Method = (requestParts X line).getD 0 [] ∧
        X.urlParse ((requestParts X line).getD 1 []) = (req.URL, none)) := by
  rcases httpNewRequest_cases X (str "") (str "") with ⟨e, h0⟩ | ⟨req0, h0⟩
  · have hp := ParseRawRequest_newRequestError X r e h0
    rw [hp]
    refine ⟨fun _ => ⟨rfl, by simp⟩, fun _ _ _ => ⟨rfl, by simp⟩, fun req h => ?_⟩
    simp at h
  · refine ⟨fun hl => ?_, fun line hl hlt => ?_, fun req h => ?_⟩
    · rw [ParseRawRequest_noLine X r req0 h0 hl]
      exact ⟨rfl, by simp⟩
    · rw [ParseRawRequest_line X r req0 line h0 hl, if_pos hlt]
      exact ⟨rfl, by simp⟩
    · cases hl : firstLine r.rest with
      | none =>
        rw [ParseRawRequest_noLine X r req0 h0 hl] at h
        simp at h
      | some line =>
        rw [ParseRawRequest_line X r req0 line h0 hl] at h
        refine ⟨line, rfl, ?_⟩
        by_cases hlt : (requestParts X line).length < 3
        · rw [if_pos hlt] at h; simp at h
        · rw [if_neg hlt] at h
          by_cases hv : (parseHTTPVersion ((requestParts X line).getD 2 [])).2.2 = false
          · rw [if_pos hv] at h; simp at h
          · rw [if_neg hv] at h
            rcases hu : X.urlParse ((requestParts X line).getD 1 []) with ⟨u, ue⟩
            rw [hu] at h
            cases ue with
            | some e => simp at h
            | none =>
              simp only [Prod.mk.injEq, Option.some.injEq, and_true] at h
              subst h
              exact ⟨by omega, rfl, rfl⟩

/-- Witness of C18: an input without a line feed and an input with a
two-part first line are rejected; the sample request is accepted with method
`POST` and URL `/x`. -/
theorem C18_request_line_witness :
    ((ParseRawRequest sampleH ⟨str "GET / HTTP/1.1"⟩).1.map (fun req => req.Method) = none ∧
        (ParseRawRequest sampleH ⟨str "GET / HTTP/1.1"⟩).2 ≠ none) ∧
      ((ParseRawRequest sampleH ⟨str "GET /\n"⟩).1.map (fun req => req.Method) = none ∧
        (ParseRawRequest sampleH ⟨str "GET /\n"⟩).2 ≠ none) ∧
      (ParseRawRequest sampleH sampleRequest).1.map (fun req => (req.Method, req.URL))
        = some (str "POST", str "/x") :=
  have h1 := (C18_request_line sampleH ⟨str "GET / HTTP/1.1"⟩).1 (by decide)
  have h2 := (C18_request_line sampleH ⟨str "GET /\n"⟩).2.1 (str "GET /\n") (by decide)
    (by decide)
  ⟨⟨by rw [h1.1]; rfl, h1.2⟩, ⟨by rw [h2.1]; rfl, h2.2⟩, by decide⟩

/-- C19, as stated, fails: the text after the `/` of `HTTP/9223372036854775808`
is a decimal integer and holds no `.`, and `parseHTTPVersion` does not accept
it, the number being 2^63. -/
theorem C19_counterexample :
    0x2F ∈ str "HTTP/9223372036854775808" ∧
      textAfter 0x2F (str "HTTP/9223372036854775808") = str "9223372036854775808" ∧
      (str "9223372036854775808").all isDecDigit = true ∧
      parseHTTPVersion (str "HTTP/9223372036854775808") = (0, 0, false) := by
  refine ⟨by decide, by decide, by decide, by decide⟩

/-- C19, amended: `parseHTTPVersion(vers)` returns `ok = true` exactly when
`vers` holds a `/`, the text between the first `/` and the following `.` (or
the end) is a decimal integer of the `int` type (an optional sign, digits, a
value from -2^63 to 2^63 - 1), and the text after that `.`, when there is one,
is such an integer too; major and minor are then these values, minor being 0
without a `.`; in every other case the result is `(0, 0, false)`. Whenever
`ParseRawRequest` returns a request, its `ProtoMajor` and `ProtoMinor` are
these values for the third part of the first line; and when the first line has
three parts or more and the third is no such version, it returns no request,
and the error "malformed http protocol version" once the empty request was
made. -/
theorem C19_protocol_version (X : HttpExternals URL) (r : ReadCloser) (vers : GoString) :
    parseHTTPVersion vers = versionSpec vers ∧
    (∀ req, ParseRawRequest X r = (some req, none) →
      ∃ line, firstLine r.rest = some line ∧
        versionSpec ((requestParts X line).getD 2 []) = (req.ProtoMajor, req.ProtoMinor, true)) ∧
    (∀ line, firstLine r.rest = some line → 3 ≤ (requestParts X line).length →
      (versionSpec ((requestParts X line).getD 2 [])).2.2 = false →
      (ParseRawRequest X r).1 = none ∧
        ((httpNewRequest X (str "") (str "")).2 = none →
          (ParseRawRequest X r).2 = some (.errorf "malformed http protocol version" []))) := by
  refine ⟨parseHTTPVersion_eq_spec vers, fun req h => ?_, fun line hl h3 hv => ?_⟩
  · rcases httpNewRequest_cases X (str "") (str "") with ⟨e, h0⟩ | ⟨req0, h0⟩
    · rw [ParseRawRequest_newRequestError X r e h0] at h
      simp at h
    · cases hl : firstLine r.rest with
      | none =>
        rw [ParseRawRequest_noLine X r req0 h0 hl] at h
        simp at h
      | some line =>
        rw [ParseRawRequest_line X r req0 line h0 hl] at h
        refine ⟨line, rfl, ?_⟩
        rw [← parseHTTPVersion_eq_spec]
        by_cases hlt : (requestParts X line).length < 3
        · rw [if_pos hlt] at h; simp at h
        · rw [if_neg hlt] at h
          by_cases hv : (parseHTTPVersion ((requestParts X line).getD 2 [])).2.2 = false
          · rw [if_pos hv] at h; simp at h
          · rw [if_neg hv] at h
            rcases hu : X.urlParse ((requestParts X line).getD 1 []) with ⟨u, ue⟩
            rw [hu] at h
            cases ue with
            | some e => simp at h
            | none =>
              simp only [Prod.mk.injEq, Option.some.injEq, and_true] at h
              subst h
              have hv' : (parseHTTPVersion ((requestParts X line).getD 2 [])).2.2 = true := by
                simpa using hv
              rw [← hv']
  · rw [← parseHTTPVersion_eq_spec] at hv
    rcases httpNewRequest_cases X (str "") (str "") with ⟨e, h0⟩ | ⟨req0, h0⟩
    · rw [ParseRawRequest_newRequestError X r e h0, h0]
      exact ⟨rfl, fun h => by simp at h⟩
    · rw [ParseRawRequest_line X r req0 line h0 hl, if_neg (by omega), if_pos hv]
      exact ⟨rfl, fun _ => rfl⟩

/-- Witness of C19, amended: `HTTP/1.1` gives (1, 1), `HTTP/2` gives (2, 0),
the sample request is stored with version 1.1, and a request line with the
version `HTTP/x` is rejected with the version error. -/
theorem C19_protocol_version_witness :
    parseHTTPVersion (str "HTTP/1.1") = (1, 1, true) ∧
      parseHTTPVersion (str "HTTP/2") = (2, 0, true) ∧
      (ParseRawRequest sampleH sampleRequest).1.map
          (fun req => (req.ProtoMajor, req.ProtoMinor)) = some (1, 1) ∧
      (ParseRawRequest sampleH ⟨str "GET / HTTP/x\n"⟩).2
        = some (.errorf "malformed http protocol version" []) :=
  ⟨(C19_protocol_version sampleH sampleRequest (str "HTTP/1.1")).1.trans (by decide),
    (C19_protocol_version sampleH sampleRequest (str "HTTP/2")).1.trans (by decide),
    by decide,
    ((C19_protocol_version sampleH ⟨str "GET / HTTP/x\n"⟩ []).2.2 (str "GET / HTTP/x\n")
      (by decide) (by decide) (by decide)).2 (by decide)⟩

end Ffuf
